import Mathlib

/-!
# Parallel marching squares (`tema1_par.c`)

A shallow embedding of the three worker routines of `tema1_par.c`
(`rescale_image_parallel`, `sample_grid_parallel`, `march_parallel`, with the
helper `update_image_parallel`) and of the buffer set-up done in `main`.

Modelling decisions.

* A C buffer is a `List`; reading or writing outside it is undefined behaviour
  in C and is modelled as the result `none`: every routine returns an `Option`,
  and `none` means that the run performed an out-of-range access.
* `int` values are natural numbers, except for the two pixel indices that
  contain a subtraction (`image->x - 1`), which are computed in `Int`.  `int`
  overflow is not modelled (the pipeline only handles images of at most
  2048 x 2048 pixels).
* `int start = ID * (double) N / P` converts the exact product `ID * N` to
  `double`, divides and truncates.  For `P ≥ 1` and operands below `2 ^ 26`
  the truncated quotient is `⌊ID * N / P⌋`, which is what `range_start`
  computes; `range_end` is the same with the C function `min`.
* The workers of one phase are separated from the next phase by a barrier; a
  phase is modelled as the workers `0, 1, …, P - 1` running one after the other.
-/

namespace Tema1

/-! ## Constants -/

abbrev CONTOUR_CONFIG_COUNT : Nat := 16
abbrev STEP : Nat := 8
abbrev SIGMA : Nat := 200
abbrev RESCALE_X : Nat := 2048
abbrev RESCALE_Y : Nat := 2048

/-! ## Data model -/

/-- Modelled from the spec: the pixel type `ppm_pixel` is declared in
`helpers.h`, which is not part of the sources; a pixel has three 8-bit
unsigned channels. -/
structure ppm_pixel where
  red : Fin 256
  green : Fin 256
  blue : Fin 256
deriving DecidableEq

/-- Modelled from the spec: the image type `ppm_image` is declared in
`helpers.h`, which is not part of the sources; an image has the dimensions
`x` (number of rows) and `y` (row length) and a row-major pixel buffer,
`index = row * y + col`. -/
structure ppm_image where
  x : Nat
  y : Nat
  data : List ppm_pixel
deriving DecidableEq

/-- The occupancy grid `unsigned char **grid`: a buffer of rows of bytes. -/
abbrev Grid := List (List (Fin 256))

/-- The read `image->data[index]`. -/
def read_pixel (image : ppm_image) (index : Int) : Option ppm_pixel :=
  if 0 ≤ index then image.data[index.toNat]? else none

/-- The write `data[index] = v`. -/
def write_pixel (data : List ppm_pixel) (index : Nat) (v : ppm_pixel) :
    Option (List ppm_pixel) :=
  if index < data.length then some (data.set index v) else none

/-- The read `grid[i][j]`. -/
def read_cell (grid : Grid) (i j : Nat) : Option (Fin 256) :=
  match grid[i]? with
  | none => none
  | some row => row[j]?

/-- The write `grid[i][j] = v`. -/
def write_cell (grid : Grid) (i j : Nat) (v : Fin 256) : Option Grid :=
  match grid[i]? with
  | none => none
  | some row => if j < row.length then some (grid.set i (row.set j v)) else none

/-- The loop `for (int i = lo; i < hi; i++) body` on a state that is lost
    when the body performs an out-of-range access. -/
def for_loop {σ : Type} (lo hi : Nat) (body : Nat → σ → Option σ) (s : σ) : Option σ :=
  (List.range' lo (hi - lo)).foldlM (fun s i => body i s) s

/-! ## The routines of `tema1_par.c` -/

/-- The C function `min`. -/
def min (x y : Nat) : Nat :=
  if x < y then x else y

/-- The lower bound `int start = ID * (double) N / P` of a worker's range. -/
def range_start (ID N P : Nat) : Nat :=
  ID * N / P

/-- The upper bound `int end = min((ID + 1) * (double) N / P, N)` of a worker's range. -/
def range_end (ID N P : Nat) : Nat :=
  min ((ID + 1) * N / P) N

/-- The binarisation that `sample_grid_parallel` applies to a sampled pixel:
    `curr_color = (red + green + blue) / 3` stored in an `unsigned char`, and
    the cell is `0` if `curr_color > SIGMA`, else `1`. -/
def threshold (curr_pixel : ppm_pixel) : Fin 256 :=
  let curr_color := (curr_pixel.red.val + curr_pixel.green.val + curr_pixel.blue.val) / 3 % 256
  if curr_color > SIGMA then 0 else 1

/-- The function `update_image_parallel`: copies the pixels of `contour` into
    `image`, the top left corner at row `x`, column `y`.  The assignments of
    the three channels of a pixel are one write of the pixel. -/
def update_image_parallel (image contour : ppm_image) (x y : Nat) : Option ppm_image :=
  (for_loop 0 contour.x (fun i data =>
    for_loop 0 contour.y (fun j data =>
      let contour_pixel_index := contour.x * i + j
      let image_pixel_index := (x + i) * image.y + y + j
      match contour.data[contour_pixel_index]? with
      | none => none
      | some c => write_pixel data image_pixel_index ⟨c.red, c.green, c.blue⟩) data)
    image.data).map (fun data => { image with data := data })

/-- The function `rescale_image_parallel`.  `sample_bicubic image i nx j ny`
    stands for the pixel that `sample_bicubic` of `helpers.c` (not part of the
    sources) returns for `u = i / (nx - 1)` and `v = j / (ny - 1)`. -/
def rescale_image_parallel (sample_bicubic : ppm_image → Nat → Nat → Nat → Nat → ppm_pixel)
    (image new_image : ppm_image) (ID P : Nat) : Option ppm_image :=
  if image.x ≤ RESCALE_X ∧ image.y ≤ RESCALE_Y then
    some new_image
  else
    let start := range_start ID new_image.x P
    let end_ := range_end ID new_image.x P
    (for_loop start end_ (fun i data =>
      for_loop 0 new_image.y (fun j data =>
        let sample := sample_bicubic image i new_image.x j new_image.y
        write_pixel data (i * new_image.y + j) sample) data)
      new_image.data).map (fun data => { new_image with data := data })

/-- The function `sample_grid_parallel`. -/
def sample_grid_parallel (image : ppm_image) (grid : Grid) (ID P : Nat) : Option Grid := do
  let p := image.x / STEP
  let q := image.y / STEP
  let start_x := range_start ID p P
  let end_x := range_end ID p P
  let grid ← for_loop start_x end_x (fun i grid =>
    for_loop 0 q (fun j grid => do
      let curr_pixel ← read_pixel image (((i * STEP * image.y + j * STEP : Nat) : Int))
      write_cell grid i j (threshold curr_pixel)) grid) grid
  let grid ← for_loop start_x end_x (fun i grid => do
    let curr_pixel ← read_pixel image ((i : Int) * STEP * image.y + image.x - 1)
    write_cell grid i q (threshold curr_pixel)) grid
  let start_y := range_start ID q P
  let end_y := range_end ID q P
  for_loop start_y end_y (fun j grid => do
    let curr_pixel ← read_pixel image (((image.x : Int) - 1) * image.y + j * STEP)
    write_cell grid p j (threshold curr_pixel)) grid

/-- The value `k` of `march_parallel`, an `unsigned char`, from the four cells
    top left, top right, bottom right, bottom left. -/
def config_of (tl tr br bl : Fin 256) : Nat :=
  (8 * tl.val + 4 * tr.val + 2 * br.val + 1 * bl.val) % 256

/-- The computation of `k` at block `(i, j)`:
    `8 * grid[i][j] + 4 * grid[i][j + 1] + 2 * grid[i + 1][j + 1] + 1 * grid[i + 1][j]`. -/
def config_index (grid : Grid) (i j : Nat) : Option Nat := do
  let tl ← read_cell grid i j
  let tr ← read_cell grid i (j + 1)
  let br ← read_cell grid (i + 1) (j + 1)
  let bl ← read_cell grid (i + 1) j
  some (config_of tl tr br bl)

/-- The body of the loops of `march_parallel` at block `(i, j)`. -/
def march_block (grid : Grid) (contour_map : List ppm_image) (i j : Nat)
    (image : ppm_image) : Option ppm_image := do
  let k ← config_index grid i j
  let contour ← contour_map[k]?
  update_image_parallel image contour (i * STEP) (j * STEP)

/-- The function `march_parallel`. -/
def march_parallel (image : ppm_image) (grid : Grid) (contour_map : List ppm_image)
    (ID P : Nat) : Option ppm_image :=
  let p := image.x / STEP
  let q := image.y / STEP
  let start := range_start ID p P
  let end_ := range_end ID p P
  for_loop start end_ (fun i image =>
    for_loop 0 q (fun j image => march_block grid contour_map i j image) image) image

/-! ## The phases run by `thread_function` and the set-up of `main` -/

/-- The buffer `new_image` that `main` hands to the workers.  `fresh` is the
    content of the block that `malloc` returns when the image is rescaled. -/
def main_new_image (image : ppm_image) (fresh : List ppm_pixel) : ppm_image :=
  if image.x ≤ RESCALE_X ∧ image.y ≤ RESCALE_Y then
    { x := image.x, y := image.y, data := image.data }
  else
    { x := RESCALE_X, y := RESCALE_Y, data := fresh }

/-- All `P` workers run `rescale_image_parallel` (up to the first barrier). -/
def rescale_phase (sample_bicubic : ppm_image → Nat → Nat → Nat → Nat → ppm_pixel)
    (image new_image : ppm_image) (P : Nat) : Option ppm_image :=
  (List.range P).foldlM (fun scaled ID => rescale_image_parallel sample_bicubic image scaled ID P)
    new_image

/-- All `P` workers run `sample_grid_parallel` (up to the second barrier). -/
def sample_phase (image : ppm_image) (grid : Grid) (P : Nat) : Option Grid :=
  (List.range P).foldlM (fun grid ID => sample_grid_parallel image grid ID P) grid

/-- All `P` workers run `march_parallel`. -/
def march_phase (image : ppm_image) (grid : Grid) (contour_map : List ppm_image)
    (P : Nat) : Option ppm_image :=
  (List.range P).foldlM (fun image ID => march_parallel image grid contour_map ID P) image

/-- The sampling phase followed by the marching phase, on the scaled image. -/
def sample_then_march (image : ppm_image) (grid : Grid) (contour_map : List ppm_image)
    (P : Nat) : Option ppm_image := do
  let grid ← sample_phase image grid P
  march_phase image grid contour_map P

/-! ## Runs as lists of writes

A routine that only reads buffers it does not modify performs a sequence of
writes whose targets and values are known in advance.  An entry `none` stands
for an access that went out of range before the write could take place. -/

/-- One entry of a list of writes applied to a store with the write operation `wr`. -/
def apply_write {σ κ ν : Type} (wr : σ → κ → ν → Option σ) (s : σ) : Option (κ × ν) → Option σ
  | none => none
  | some w => wr s w.1 w.2

/-- A list of writes applied from left to right. -/
def apply_writes {σ κ ν : Type} (wr : σ → κ → ν → Option σ) (s : σ)
    (ws : List (Option (κ × ν))) : Option σ :=
  ws.foldlM (apply_write wr) s

/-- What a buffer with the read `rd` and the write `wr` has to satisfy: a
    write succeeds exactly on the keys that can be read, stores its value and
    leaves the other keys alone. -/
structure StoreLaws {σ κ ν : Type} (rd : σ → κ → Option ν) (wr : σ → κ → ν → Option σ) :
    Prop where
  wr_of_rd : ∀ s k v, (rd s k).isSome → (wr s k v).isSome
  rd_of_wr : ∀ s k v, (wr s k v).isSome → (rd s k).isSome
  rd_wr_same : ∀ s k v s', wr s k v = some s' → rd s' k = some v
  rd_wr_other : ∀ s k v s' k', wr s k v = some s' → k' ≠ k → rd s' k' = rd s k'

/-- The grid as a store: cells are addressed by `(row, column)`. -/
def grid_rd (grid : Grid) (k : Nat × Nat) : Option (Fin 256) :=
  read_cell grid k.1 k.2

/-- The write of a grid cell addressed by `(row, column)`. -/
def grid_wr (grid : Grid) (k : Nat × Nat) (v : Fin 256) : Option Grid :=
  write_cell grid k.1 k.2 v

/-- The pixel buffer of an image as a store. -/
def image_rd (image : ppm_image) (k : Nat) : Option ppm_pixel :=
  image.data[k]?

/-- The write `image->data[k] = v`. -/
def image_wr (image : ppm_image) (k : Nat) (v : ppm_pixel) : Option ppm_image :=
  (write_pixel image.data k v).map (fun data => { image with data := data })

/-- The write that `sample_grid_parallel` derives from the pixel at `index`
    for the cell `(i, j)`. -/
def sample_write (image : ppm_image) (index : Int) (i j : Nat) :
    Option ((Nat × Nat) × Fin 256) :=
  (read_pixel image index).map (fun curr_pixel => ((i, j), threshold curr_pixel))

/-- The write of the first loop nest of `sample_grid_parallel` at `(i, j)`. -/
def interior_write (image : ppm_image) (i j : Nat) : Option ((Nat × Nat) × Fin 256) :=
  sample_write image (((i * STEP * image.y + j * STEP : Nat) : Int)) i j

/-- The write of the second loop of `sample_grid_parallel` at row `i`. -/
def last_column_write (image : ppm_image) (i : Nat) : Option ((Nat × Nat) × Fin 256) :=
  sample_write image ((i : Int) * STEP * image.y + image.x - 1) i (image.y / STEP)

/-- The write of the third loop of `sample_grid_parallel` at column `j`. -/
def last_row_write (image : ppm_image) (j : Nat) : Option ((Nat × Nat) × Fin 256) :=
  sample_write image (((image.x : Int) - 1) * image.y + j * STEP) (image.x / STEP) j

/-- The writes of `sample_grid_parallel`, in program order. -/
def sample_writes (image : ppm_image) (ID P : Nat) : List (Option ((Nat × Nat) × Fin 256)) :=
  let p := image.x / STEP
  let q := image.y / STEP
  (List.range' (range_start ID p P) (range_end ID p P - range_start ID p P)).flatMap
      (fun i => (List.range' 0 (q - 0)).map (fun j => interior_write image i j))
    ++ ((List.range' (range_start ID p P) (range_end ID p P - range_start ID p P)).map
      (fun i => last_column_write image i)
    ++ (List.range' (range_start ID q P) (range_end ID q P - range_start ID q P)).map
      (fun j => last_row_write image j))

/-- The writes of `update_image_parallel` on an image of row length `image_y`. -/
def tile_writes (image_y : Nat) (contour : ppm_image) (x y : Nat) :
    List (Option (Nat × ppm_pixel)) :=
  (List.range' 0 (contour.x - 0)).flatMap (fun i =>
    (List.range' 0 (contour.y - 0)).map (fun j =>
      (contour.data[contour.x * i + j]?).map
        (fun c => ((x + i) * image_y + y + j, (⟨c.red, c.green, c.blue⟩ : ppm_pixel)))))

/-- The tile that `march_parallel` selects at block `(i, j)`. -/
def block_tile (grid : Grid) (contour_map : List ppm_image) (i j : Nat) : Option ppm_image :=
  (config_index grid i j).bind (fun k => contour_map[k]?)

/-- The writes of `march_parallel` at block `(i, j)`. -/
def block_writes (image_y : Nat) (grid : Grid) (contour_map : List ppm_image) (i j : Nat) :
    List (Option (Nat × ppm_pixel)) :=
  match block_tile grid contour_map i j with
  | none => [none]
  | some contour => tile_writes image_y contour (i * STEP) (j * STEP)

/-- The writes of `march_parallel` on an image of dimensions `image_x`, `image_y`. -/
def march_writes (image_x image_y : Nat) (grid : Grid) (contour_map : List ppm_image)
    (ID P : Nat) : List (Option (Nat × ppm_pixel)) :=
  let p := image_x / STEP
  let q := image_y / STEP
  (List.range' (range_start ID p P) (range_end ID p P - range_start ID p P)).flatMap (fun i =>
    (List.range' 0 (q - 0)).flatMap (fun j => block_writes image_y grid contour_map i j))

/-- The writes that the sampling phase performs, whatever the number of workers. -/
def is_sample_write (image : ppm_image) (w : Option ((Nat × Nat) × Fin 256)) : Prop :=
  (∃ i j, i < image.x / STEP ∧ j < image.y / STEP ∧ w = interior_write image i j) ∨
  (∃ i, i < image.x / STEP ∧ w = last_column_write image i) ∨
  (∃ j, j < image.y / STEP ∧ w = last_row_write image j)

/-- The grid has the cells `(i, j)` for `i < rows` and `j < cols`. -/
def grid_has (grid : Grid) (rows cols : Nat) : Prop :=
  ∀ i, i < rows → ∀ j, j < cols → (read_cell grid i j).isSome

instance (grid : Grid) (rows cols : Nat) : Decidable (grid_has grid rows cols) := by
  unfold grid_has
  infer_instance

/-- The grid has the cells `(i, j)` for `i < rows` and `j < cols`, and they hold `0` or `1`. -/
def grid_is_binary (grid : Grid) (rows cols : Nat) : Prop :=
  ∀ i, i < rows → ∀ j, j < cols → (read_cell grid i j = some 0 ∨ read_cell grid i j = some 1)

instance (grid : Grid) (rows cols : Nat) : Decidable (grid_is_binary grid rows cols) := by
  unfold grid_is_binary
  infer_instance

/-- The tiles of the contour map are `STEP` x `STEP`. -/
def tiles_are_step (contour_map : List ppm_image) : Prop :=
  ∀ t ∈ contour_map, t.x = STEP ∧ t.y = STEP

instance (contour_map : List ppm_image) : Decidable (tiles_are_step contour_map) := by
  unfold tiles_are_step
  infer_instance

/-! ## Concrete inputs -/

/-- A pixel with every channel at 255. -/
def bright : ppm_pixel := ⟨255, 255, 255⟩

/-- A pixel with every channel at 0. -/
def dark : ppm_pixel := ⟨0, 0, 0⟩

/-- The 16 x 16 image whose every channel is 255. -/
def bright_image : ppm_image := { x := 16, y := 16, data := List.replicate 256 bright }

/-- The 8 x 8 image whose every channel is 255: one block. -/
def one_block_image : ppm_image := { x := 8, y := 8, data := List.replicate 64 bright }

/-- An image of 8 rows and 16 columns, bright except for the pixel at row 0, column 7. -/
def wide_image : ppm_image :=
  { x := 8, y := 16, data := List.replicate 7 bright ++ dark :: List.replicate 120 bright }

/-- A grid buffer of `rows` x `cols` cells that all hold `v`. -/
def filled_grid (rows cols : Nat) (v : Fin 256) : Grid :=
  List.replicate rows (List.replicate cols v)

/-- Sixteen 8 x 8 tiles; the pixels of tile `k` have the red channel `k`. -/
def numbered_tiles : List ppm_image :=
  (List.range 16).map (fun k => { x := 8, y := 8, data := List.replicate 64 ⟨Fin.ofNat k, 0, 0⟩ })

/-- The writes of `rescale_image_parallel`, in program order. -/
def rescale_writes (sample_bicubic : ppm_image → Nat → Nat → Nat → Nat → ppm_pixel)
    (image new_image : ppm_image) (ID P : Nat) : List (Option (Nat × ppm_pixel)) :=
  if image.x ≤ RESCALE_X ∧ image.y ≤ RESCALE_Y then
    []
  else
    (List.range' (range_start ID new_image.x P)
        (range_end ID new_image.x P - range_start ID new_image.x P)).flatMap (fun i =>
      (List.range' 0 (new_image.y - 0)).map (fun j =>
        some (i * new_image.y + j, sample_bicubic image i new_image.x j new_image.y)))

/-- A source image of 3000 rows and 100 columns: only one dimension exceeds 2048. -/
def oversize_image : ppm_image := { x := 3000, y := 100, data := List.replicate 300000 bright }

/-- An image of 2048 rows and 8 columns. -/
def tall_image : ppm_image := { x := 2048, y := 8, data := List.replicate 16384 bright }

/-- Sixteen tiles of one dark pixel each. -/
def tiny_tiles : List ppm_image :=
  List.replicate 16 { x := 1, y := 1, data := [dark] }

/-! ## Partition of an extent among the workers -/

theorem min_le_left (a b : Nat) : Tema1.min a b ≤ a := by
  unfold Tema1.min
  split <;> omega

theorem min_le_right (a b : Nat) : Tema1.min a b ≤ b := by
  unfold Tema1.min
  split <;> omega

theorem lt_min {n a b : Nat} (ha : n < a) (hb : n < b) : n < Tema1.min a b := by
  unfold Tema1.min
  split <;> omega

theorem range_end_le (ID N P : Nat) : range_end ID N P ≤ N := by
  unfold range_end
  exact min_le_right _ _

theorem range_end_le_start {ID1 ID2 : Nat} (N P : Nat) (h : ID1 < ID2) :
    range_end ID1 N P ≤ range_start ID2 N P := by
  unfold range_end range_start
  calc Tema1.min ((ID1 + 1) * N / P) N ≤ (ID1 + 1) * N / P := min_le_left _ _
    _ ≤ ID2 * N / P := Nat.div_le_div_right (Nat.mul_le_mul_right N h)

theorem range_cover {N P n : Nat} (hP : 1 ≤ P) (hn : n < N) :
    ∃ ID, ID < P ∧ range_start ID N P ≤ n ∧ n < range_end ID N P := by
  have hN : 0 < N := by omega
  have hmul : (n + 1) * P ≤ N * P := Nat.mul_le_mul_right P hn
  have hpos : 1 ≤ (n + 1) * P := Nat.mul_pos (by omega) hP
  refine ⟨((n + 1) * P - 1) / N, ?_, ?_, ?_⟩
  · rw [Nat.div_lt_iff_lt_mul hN]
    rw [Nat.mul_comm P N]
    omega
  · unfold range_start
    have h1 : ((n + 1) * P - 1) / N * N ≤ (n + 1) * P - 1 := Nat.div_mul_le_self _ _
    have h2 : ((n + 1) * P - 1) / N * N / P < n + 1 := by
      rw [Nat.div_lt_iff_lt_mul (by omega)]
      omega
    omega
  · unfold range_end
    have h1 : (n + 1) * P - 1 < N * (((n + 1) * P - 1) / N + 1) := Nat.lt_mul_div_succ _ hN
    have h2 : n + 1 ≤ (((n + 1) * P - 1) / N + 1) * N / P := by
      rw [Nat.le_div_iff_mul_le (by omega)]
      rw [Nat.mul_comm N] at h1
      omega
    exact lt_min (by omega) hn

/-- C1: for `P ≥ 1` workers and an extent `N`, the ranges
    `[range_start ID N P, range_end ID N P)` of the workers `ID < P` cover
    `[0, N)` exactly and are pairwise disjoint. -/
theorem partition_coverage (P N : Nat) (hP : 1 ≤ P) :
    (∀ n, n < N ↔ ∃ ID, ID < P ∧ range_start ID N P ≤ n ∧ n < range_end ID N P) ∧
    (∀ ID1 ID2 n, ID1 < P → ID2 < P → ID1 ≠ ID2 →
      ¬ ((range_start ID1 N P ≤ n ∧ n < range_end ID1 N P) ∧
         (range_start ID2 N P ≤ n ∧ n < range_end ID2 N P))) := by
  refine ⟨fun n => ⟨fun hn => range_cover hP hn, ?_⟩, ?_⟩
  · rintro ⟨ID, -, -, h⟩
    exact Nat.lt_of_lt_of_le h (range_end_le ID N P)
  · rintro ID1 ID2 n - - hne ⟨⟨h1, h2⟩, ⟨h3, h4⟩⟩
    rcases Nat.lt_or_gt_of_ne hne with h | h
    · have := range_end_le_start N P h
      omega
    · have := range_end_le_start N P h
      omega

/-- Witness for C1: four workers on an extent of ten rows. -/
theorem partition_coverage_witness :
    1 ≤ 4 ∧
    ((∀ n, n < 10 ↔ ∃ ID, ID < 4 ∧ range_start ID 10 4 ≤ n ∧ n < range_end ID 10 4) ∧
    (∀ ID1 ID2 n, ID1 < 4 → ID2 < 4 → ID1 ≠ ID2 →
      ¬ ((range_start ID1 10 4 ≤ n ∧ n < range_end ID1 10 4) ∧
         (range_start ID2 10 4 ≤ n ∧ n < range_end ID2 10 4)))) :=
  ⟨by decide, partition_coverage 4 10 (by decide)⟩
/-! ## Lists of writes on a lawful store -/

section Store

variable {σ κ ν : Type} {rd : σ → κ → Option ν} {wr : σ → κ → ν → Option σ}

theorem apply_writes_nil (s : σ) : apply_writes wr s [] = some s := rfl

theorem apply_writes_cons (s : σ) (w : Option (κ × ν)) (ws : List (Option (κ × ν))) :
    apply_writes wr s (w :: ws) = (apply_write wr s w).bind (fun s1 => apply_writes wr s1 ws) := by
  simp [apply_writes, List.foldlM_cons]

theorem apply_writes_append (s : σ) (ws1 ws2 : List (Option (κ × ν))) :
    apply_writes wr s (ws1 ++ ws2)
      = (apply_writes wr s ws1).bind (fun s1 => apply_writes wr s1 ws2) := by
  simp [apply_writes, List.foldlM_append]

theorem foldlM_apply_writes {ι : Type} (W : ι → List (Option (κ × ν))) (l : List ι) (s : σ) :
    l.foldlM (fun s a => apply_writes wr s (W a)) s = apply_writes wr s (l.flatMap W) := by
  induction l generalizing s with
  | nil => rfl
  | cons a l ih =>
    rw [List.foldlM_cons, List.flatMap_cons, apply_writes_append]
    cases h : apply_writes wr s (W a) with
    | none => rfl
    | some s1 => simpa using ih s1

theorem foldlM_apply_write {ι : Type} (w : ι → Option (κ × ν)) (l : List ι) (s : σ) :
    l.foldlM (fun s a => apply_write wr s (w a)) s = apply_writes wr s (l.map w) := by
  induction l generalizing s with
  | nil => rfl
  | cons a l ih =>
    rw [List.foldlM_cons, List.map_cons, apply_writes_cons]
    cases h : apply_write wr s (w a) with
    | none => rfl
    | some s1 => simpa using ih s1

theorem for_loop_apply_writes (W : Nat → List (Option (κ × ν))) (lo hi : Nat) (s : σ) :
    for_loop lo hi (fun i s => apply_writes wr s (W i)) s
      = apply_writes wr s ((List.range' lo (hi - lo)).flatMap W) :=
  foldlM_apply_writes W _ s

theorem for_loop_apply_write (w : Nat → Option (κ × ν)) (lo hi : Nat) (s : σ) :
    for_loop lo hi (fun i s => apply_write wr s (w i)) s
      = apply_writes wr s ((List.range' lo (hi - lo)).map w) :=
  foldlM_apply_write w _ s

theorem apply_write_some {s s' : σ} {w : Option (κ × ν)}
    (h : apply_write wr s w = some s') :
    ∃ k v, w = some (k, v) ∧ wr s k v = some s' := by
  cases w with
  | none => simp [apply_write] at h
  | some kv => exact ⟨kv.1, kv.2, rfl, h⟩

theorem rd_isSome_of_wr (L : StoreLaws rd wr) {s s' : σ} {k : κ} {v : ν}
    (h : wr s k v = some s') (k' : κ) : (rd s' k').isSome = (rd s k').isSome := by
  by_cases hk : k' = k
  · subst hk
    rw [L.rd_wr_same s k' v s' h]
    have := L.rd_of_wr s k' v (by rw [h]; rfl)
    simp [this]
  · rw [L.rd_wr_other s k v s' k' h hk]

theorem apply_writes_isSome_rd (L : StoreLaws rd wr) {ws : List (Option (κ × ν))} {s s' : σ}
    (h : apply_writes wr s ws = some s') (k : κ) : (rd s' k).isSome = (rd s k).isSome := by
  induction ws generalizing s with
  | nil =>
    rw [apply_writes_nil] at h
    cases h
    rfl
  | cons w ws ih =>
    rw [apply_writes_cons] at h
    cases h1 : apply_write wr s w with
    | none => simp [h1] at h
    | some s1 =>
      rw [h1] at h
      obtain ⟨k1, v1, -, hw⟩ := apply_write_some h1
      rw [ih h, rd_isSome_of_wr L hw]

theorem apply_writes_isSome_iff (L : StoreLaws rd wr) (ws : List (Option (κ × ν))) (s : σ) :
    (apply_writes wr s ws).isSome ↔ ∀ w ∈ ws, ∃ k v, w = some (k, v) ∧ (rd s k).isSome := by
  induction ws generalizing s with
  | nil => simp [apply_writes_nil]
  | cons w ws ih =>
    rw [apply_writes_cons]
    constructor
    · intro h
      cases h1 : apply_write wr s w with
      | none => simp [h1] at h
      | some s1 =>
        rw [h1] at h
        obtain ⟨k1, v1, hw1, hw⟩ := apply_write_some h1
        intro w' hw'
        rcases List.mem_cons.1 hw' with rfl | hmem
        · exact ⟨k1, v1, hw1, L.rd_of_wr s k1 v1 (by rw [hw]; rfl)⟩
        · obtain ⟨k, v, hkv, hs⟩ := (ih s1).1 h w' hmem
          refine ⟨k, v, hkv, ?_⟩
          rw [← rd_isSome_of_wr L hw k]
          exact hs
    · intro h
      obtain ⟨k1, v1, hw1, hs1⟩ := h w (List.mem_cons_self _ _)
      have hwr := L.wr_of_rd s k1 v1 hs1
      obtain ⟨s1, hs1'⟩ := Option.isSome_iff_exists.1 hwr
      have h1 : apply_write wr s w = some s1 := by
        rw [hw1]
        exact hs1'
      rw [h1]
      refine (ih s1).2 ?_
      intro w' hw'
      obtain ⟨k, v, hkv, hs⟩ := h w' (List.mem_cons_of_mem _ hw')
      refine ⟨k, v, hkv, ?_⟩
      rw [rd_isSome_of_wr L hs1' k]
      exact hs

theorem apply_writes_rd_unwritten (L : StoreLaws rd wr) {ws : List (Option (κ × ν))} {s s' : σ}
    (h : apply_writes wr s ws = some s') {k : κ} (hk : ∀ v, some (k, v) ∉ ws) :
    rd s' k = rd s k := by
  induction ws generalizing s with
  | nil =>
    rw [apply_writes_nil] at h
    cases h
    rfl
  | cons w ws ih =>
    rw [apply_writes_cons] at h
    cases h1 : apply_write wr s w with
    | none => simp [h1] at h
    | some s1 =>
      rw [h1] at h
      obtain ⟨k1, v1, hw1, hw⟩ := apply_write_some h1
      have hne : k ≠ k1 := by
        rintro rfl
        exact hk v1 (by rw [hw1]; exact List.mem_cons_self _ _)
      rw [ih h (fun v hv => hk v (List.mem_cons_of_mem _ hv)), L.rd_wr_other s k1 v1 s1 k hw hne]

theorem apply_writes_rd_written (L : StoreLaws rd wr) {ws : List (Option (κ × ν))} {s s' : σ}
    (h : apply_writes wr s ws = some s') {k : κ} {v : ν} (hmem : some (k, v) ∈ ws)
    (huniq : ∀ v', some (k, v') ∈ ws → v' = v) : rd s' k = some v := by
  induction ws generalizing s with
  | nil => simp at hmem
  | cons w ws ih =>
    rw [apply_writes_cons] at h
    cases h1 : apply_write wr s w with
    | none => simp [h1] at h
    | some s1 =>
      rw [h1] at h
      obtain ⟨k1, v1, hw1, hw⟩ := apply_write_some h1
      by_cases hlater : ∃ v', some (k, v') ∈ ws
      · obtain ⟨v', hv'⟩ := hlater
        have : v' = v := huniq v' (List.mem_cons_of_mem _ hv')
        subst this
        exact ih h hv' (fun v'' hv'' => huniq v'' (List.mem_cons_of_mem _ hv''))
      · have hnot : ∀ v', some (k, v') ∉ ws := fun v' hv' => hlater ⟨v', hv'⟩
        rw [apply_writes_rd_unwritten L h hnot]
        rcases List.mem_cons.1 hmem with heq | hin
        · rw [hw1] at heq
          cases heq
          exact L.rd_wr_same s k v s1 hw
        · exact absurd hin (hnot v)

/-- Two lists of writes with the same entries, each key being written with one
    value only, fail together and otherwise produce stores with the same content. -/
theorem apply_writes_congr_mem (L : StoreLaws rd wr) {ws1 ws2 : List (Option (κ × ν))}
    (hmem : ∀ w, w ∈ ws1 ↔ w ∈ ws2)
    (huniq : ∀ k v v', some (k, v) ∈ ws1 → some (k, v') ∈ ws1 → v = v') (s : σ) :
    ((apply_writes wr s ws1).isSome ↔ (apply_writes wr s ws2).isSome) ∧
    ∀ s1 s2, apply_writes wr s ws1 = some s1 → apply_writes wr s ws2 = some s2 →
      ∀ k, rd s1 k = rd s2 k := by
  constructor
  · rw [apply_writes_isSome_iff L, apply_writes_isSome_iff L]
    constructor
    · intro h w hw
      exact h w ((hmem w).2 hw)
    · intro h w hw
      exact h w ((hmem w).1 hw)
  · intro s1 s2 h1 h2 k
    by_cases hk : ∃ v, some (k, v) ∈ ws1
    · obtain ⟨v, hv⟩ := hk
      rw [apply_writes_rd_written L h1 hv (fun v' hv' => huniq k v' v hv' hv)]
      rw [apply_writes_rd_written L h2 ((hmem _).1 hv)
        (fun v' hv' => huniq k v' v ((hmem _).2 hv') hv)]
    · have hnot1 : ∀ v, some (k, v) ∉ ws1 := fun v hv => hk ⟨v, hv⟩
      have hnot2 : ∀ v, some (k, v) ∉ ws2 := fun v hv => hk ⟨v, (hmem _).2 hv⟩
      rw [apply_writes_rd_unwritten L h1 hnot1, apply_writes_rd_unwritten L h2 hnot2]

end Store

/-! ## The grid and the pixel buffer are lawful stores -/

theorem grid_laws : StoreLaws grid_rd grid_wr where
  wr_of_rd := by
    intro g k v h
    unfold grid_rd read_cell at h
    unfold grid_wr write_cell
    cases hrow : g[k.1]? with
    | none => simp [hrow] at h
    | some row =>
      simp only [hrow] at h ⊢
      have hj : k.2 < row.length := by
        by_contra hcon
        rw [List.getElem?_eq_none (by omega)] at h
        simp at h
      simp [hj]
  rd_of_wr := by
    intro g k v h
    unfold grid_wr write_cell at h
    unfold grid_rd read_cell
    cases hrow : g[k.1]? with
    | none => simp [hrow] at h
    | some row =>
      simp only [hrow] at h ⊢
      by_cases hj : k.2 < row.length
      · rw [List.getElem?_eq_getElem hj]
        rfl
      · simp [hj] at h
  rd_wr_same := by
    intro g k v g' h
    unfold grid_wr write_cell at h
    unfold grid_rd read_cell
    cases hrow : g[k.1]? with
    | none => simp [hrow] at h
    | some row =>
      simp only [hrow] at h
      by_cases hj : k.2 < row.length
      · simp only [hj, if_true, Option.some.injEq] at h
        subst h
        have hi : k.1 < g.length := by
          by_contra hcon
          rw [List.getElem?_eq_none (by omega)] at hrow
          cases hrow
        simp [List.getElem?_set, hi, hj]
      · simp [hj] at h
  rd_wr_other := by
    intro g k v g' k' h hne
    unfold grid_wr write_cell at h
    unfold grid_rd read_cell
    cases hrow : g[k.1]? with
    | none => simp [hrow] at h
    | some row =>
      simp only [hrow] at h
      by_cases hj : k.2 < row.length
      · simp only [hj, if_true, Option.some.injEq] at h
        subst h
        by_cases hi : k.1 = k'.1
        · have hj' : k.2 ≠ k'.2 := by
            intro hcon
            exact hne (Prod.ext hi.symm hcon.symm)
          have hlen : k'.1 < g.length := by
            by_contra hcon
            rw [hi, List.getElem?_eq_none (by omega)] at hrow
            cases hrow
          rw [← hi] at hlen ⊢
          simp [List.getElem?_set, hlen, hrow, hj']
        · simp [List.getElem?_set, hi]
      · simp [hj] at h

theorem image_laws : StoreLaws image_rd image_wr where
  wr_of_rd := by
    intro im k v h
    unfold image_rd at h
    unfold image_wr write_pixel
    have hk : k < im.data.length := by
      by_contra hcon
      rw [List.getElem?_eq_none (by omega)] at h
      simp at h
    simp [hk]
  rd_of_wr := by
    intro im k v h
    unfold image_wr write_pixel at h
    unfold image_rd
    by_cases hk : k < im.data.length
    · rw [List.getElem?_eq_getElem hk]
      rfl
    · simp [hk] at h
  rd_wr_same := by
    intro im k v im' h
    unfold image_wr write_pixel at h
    unfold image_rd
    by_cases hk : k < im.data.length
    · simp only [hk, if_true, Option.map_some', Option.some.injEq] at h
      subst h
      simp [List.getElem?_set, hk]
    · simp [hk] at h
  rd_wr_other := by
    intro im k v im' k' h hne
    unfold image_wr write_pixel at h
    unfold image_rd
    by_cases hk : k < im.data.length
    · simp only [hk, if_true, Option.map_some', Option.some.injEq] at h
      subst h
      simp [List.getElem?_set, Ne.symm hne]
    · simp [hk] at h

theorem image_wr_dims {im im' : ppm_image} {k : Nat} {v : ppm_pixel}
    (h : image_wr im k v = some im') : im'.x = im.x ∧ im'.y = im.y := by
  unfold image_wr write_pixel at h
  by_cases hk : k < im.data.length
  · simp only [hk, if_true, Option.map_some', Option.some.injEq] at h
    subst h
    exact ⟨rfl, rfl⟩
  · simp [hk] at h

theorem apply_writes_image_dims {ws : List (Option (Nat × ppm_pixel))} {im im' : ppm_image}
    (h : apply_writes image_wr im ws = some im') : im'.x = im.x ∧ im'.y = im.y := by
  induction ws generalizing im with
  | nil =>
    rw [apply_writes_nil] at h
    cases h
    exact ⟨rfl, rfl⟩
  | cons w ws ih =>
    rw [apply_writes_cons] at h
    cases h1 : apply_write image_wr im w with
    | none => simp [h1] at h
    | some im1 =>
      rw [h1] at h
      obtain ⟨k1, v1, -, hw⟩ := apply_write_some h1
      have h2 := image_wr_dims hw
      have h3 := ih h
      exact ⟨h3.1.trans h2.1, h3.2.trans h2.2⟩

/-- A list of writes on the pixel buffer alone, and the same list on the image. -/
theorem apply_writes_data (im : ppm_image) (ws : List (Option (Nat × ppm_pixel))) :
    (apply_writes write_pixel im.data ws).map (fun data => { im with data := data })
      = apply_writes image_wr im ws := by
  induction ws generalizing im with
  | nil => rfl
  | cons w ws ih =>
    rw [apply_writes_cons, apply_writes_cons]
    cases w with
    | none => rfl
    | some kv =>
      simp only [apply_write, image_wr]
      cases hw : write_pixel im.data kv.1 kv.2 with
      | none => rfl
      | some d =>
        have := ih { im with data := d }
        simpa using this

/-! ## The routines as lists of writes -/

theorem sample_step (image : ppm_image) (index : Int) (i j : Nat) (grid : Grid) :
    (do
      let curr_pixel ← read_pixel image index
      write_cell grid i j (threshold curr_pixel))
      = apply_write grid_wr grid (sample_write image index i j) := by
  unfold sample_write
  cases read_pixel image index <;> rfl

theorem sample_grid_parallel_eq (image : ppm_image) (grid : Grid) (ID P : Nat) :
    sample_grid_parallel image grid ID P = apply_writes grid_wr grid (sample_writes image ID P) := by
  unfold sample_grid_parallel sample_writes
  simp only [sample_step, for_loop_apply_write, for_loop_apply_writes, apply_writes_append,
    interior_write, last_column_write, last_row_write]
  rfl

theorem sample_phase_eq (image : ppm_image) (grid : Grid) (P : Nat) :
    sample_phase image grid P
      = apply_writes grid_wr grid ((List.range P).flatMap (fun ID => sample_writes image ID P)) := by
  unfold sample_phase
  simp only [sample_grid_parallel_eq]
  exact foldlM_apply_writes _ _ _

theorem update_step (contour : ppm_image) (index k : Nat) (data : List ppm_pixel) :
    (match contour.data[index]? with
      | none => none
      | some c => write_pixel data k ⟨c.red, c.green, c.blue⟩)
      = apply_write write_pixel data ((contour.data[index]?).map
          (fun c => (k, (⟨c.red, c.green, c.blue⟩ : ppm_pixel)))) := by
  cases contour.data[index]? <;> rfl

theorem update_image_parallel_eq (image contour : ppm_image) (x y : Nat) :
    update_image_parallel image contour x y
      = apply_writes image_wr image (tile_writes image.y contour x y) := by
  unfold update_image_parallel tile_writes
  simp only [update_step, for_loop_apply_write, for_loop_apply_writes]
  exact apply_writes_data image _

theorem march_block_eq (grid : Grid) (contour_map : List ppm_image) (i j : Nat)
    (image : ppm_image) :
    march_block grid contour_map i j image
      = apply_writes image_wr image (block_writes image.y grid contour_map i j) := by
  unfold march_block block_writes block_tile
  cases hk : config_index grid i j with
  | none => rfl
  | some k =>
    cases ht : contour_map[k]? with
    | none => simp [ht, apply_writes_cons, apply_write]
    | some t => simp [ht, update_image_parallel_eq]

theorem foldlM_apply_writes_image {ι : Type} (W : Nat → Nat → ι → List (Option (Nat × ppm_pixel)))
    (l : List ι) (im : ppm_image) :
    l.foldlM (fun im a => apply_writes image_wr im (W im.x im.y a)) im
      = apply_writes image_wr im (l.flatMap (W im.x im.y)) := by
  induction l generalizing im with
  | nil => rfl
  | cons a l ih =>
    rw [List.foldlM_cons, List.flatMap_cons, apply_writes_append]
    cases h : apply_writes image_wr im (W im.x im.y a) with
    | none => rfl
    | some im1 =>
      have hd := apply_writes_image_dims h
      have := ih im1
      rw [hd.1, hd.2] at this
      simpa using this

theorem march_parallel_eq (image : ppm_image) (grid : Grid) (contour_map : List ppm_image)
    (ID P : Nat) :
    march_parallel image grid contour_map ID P
      = apply_writes image_wr image (march_writes image.x image.y grid contour_map ID P) := by
  unfold march_parallel march_writes for_loop
  simp only [march_block_eq]
  have inner : ∀ (i : Nat) (im : ppm_image),
      List.foldlM (fun s j => apply_writes image_wr s (block_writes s.y grid contour_map i j)) im
        (List.range' 0 (image.y / STEP - 0))
      = apply_writes image_wr im ((List.range' 0 (image.y / STEP - 0)).flatMap
          (fun j => block_writes im.y grid contour_map i j)) := fun i im =>
    foldlM_apply_writes_image (fun _ y j => block_writes y grid contour_map i j) _ im
  simp only [inner]
  exact foldlM_apply_writes_image (fun _ y i => (List.range' 0 (image.y / STEP - 0)).flatMap
    (fun j => block_writes y grid contour_map i j)) _ image

theorem march_phase_eq (image : ppm_image) (grid : Grid) (contour_map : List ppm_image)
    (P : Nat) :
    march_phase image grid contour_map P
      = apply_writes image_wr image
          ((List.range P).flatMap (fun ID => march_writes image.x image.y grid contour_map ID P)) := by
  unfold march_phase
  simp only [march_parallel_eq]
  exact foldlM_apply_writes_image (fun x y ID => march_writes x y grid contour_map ID P) _ image

/-! ## The writes of the sampling phase -/

theorem mem_range'_iff (lo hi m : Nat) : m ∈ List.range' lo (hi - lo) ↔ lo ≤ m ∧ m < hi := by
  rw [List.mem_range'_1]
  omega

theorem mem_sample_writes (image : ppm_image) (ID P : Nat) (w : Option ((Nat × Nat) × Fin 256)) :
    w ∈ sample_writes image ID P ↔
      (∃ i j, (range_start ID (image.x / STEP) P ≤ i ∧ i < range_end ID (image.x / STEP) P) ∧
        j < image.y / STEP ∧ w = interior_write image i j) ∨
      (∃ i, (range_start ID (image.x / STEP) P ≤ i ∧ i < range_end ID (image.x / STEP) P) ∧
        w = last_column_write image i) ∨
      (∃ j, (range_start ID (image.y / STEP) P ≤ j ∧ j < range_end ID (image.y / STEP) P) ∧
        w = last_row_write image j) := by
  unfold sample_writes
  simp only [List.mem_append, List.mem_flatMap, List.mem_map, mem_range'_iff]
  constructor
  · rintro (⟨i, hi, j, hj, rfl⟩ | ⟨i, hi, rfl⟩ | ⟨j, hj, rfl⟩)
    · exact Or.inl ⟨i, j, hi, hj.2, rfl⟩
    · exact Or.inr (Or.inl ⟨i, hi, rfl⟩)
    · exact Or.inr (Or.inr ⟨j, hj, rfl⟩)
  · rintro (⟨i, j, hi, hj, rfl⟩ | ⟨i, hi, rfl⟩ | ⟨j, hj, rfl⟩)
    · exact Or.inl ⟨i, hi, j, ⟨Nat.zero_le _, hj⟩, rfl⟩
    · exact Or.inr (Or.inl ⟨i, hi, rfl⟩)
    · exact Or.inr (Or.inr ⟨j, hj, rfl⟩)

theorem exists_worker_iff {N P : Nat} (hP : 1 ≤ P) (n : Nat) :
    (∃ ID, ID ∈ List.range P ∧ range_start ID N P ≤ n ∧ n < range_end ID N P) ↔ n < N := by
  constructor
  · rintro ⟨ID, -, -, h⟩
    exact Nat.lt_of_lt_of_le h (range_end_le ID N P)
  · intro hn
    obtain ⟨ID, h1, h2⟩ := range_cover hP hn
    exact ⟨ID, List.mem_range.2 h1, h2⟩

theorem mem_sample_all (image : ppm_image) {P : Nat} (hP : 1 ≤ P)
    (w : Option ((Nat × Nat) × Fin 256)) :
    w ∈ (List.range P).flatMap (fun ID => sample_writes image ID P) ↔ is_sample_write image w := by
  unfold is_sample_write
  simp only [List.mem_flatMap, mem_sample_writes]
  constructor
  · rintro ⟨ID, hID, (⟨i, j, hi, hj, rfl⟩ | ⟨i, hi, rfl⟩ | ⟨j, hj, rfl⟩)⟩
    · exact Or.inl ⟨i, j, (exists_worker_iff hP i).1 ⟨ID, hID, hi⟩, hj, rfl⟩
    · exact Or.inr (Or.inl ⟨i, (exists_worker_iff hP i).1 ⟨ID, hID, hi⟩, rfl⟩)
    · exact Or.inr (Or.inr ⟨j, (exists_worker_iff hP j).1 ⟨ID, hID, hj⟩, rfl⟩)
  · rintro (⟨i, j, hi, hj, rfl⟩ | ⟨i, hi, rfl⟩ | ⟨j, hj, rfl⟩)
    · obtain ⟨ID, hID, h⟩ := (exists_worker_iff hP i).2 hi
      exact ⟨ID, hID, Or.inl ⟨i, j, h, hj, rfl⟩⟩
    · obtain ⟨ID, hID, h⟩ := (exists_worker_iff hP i).2 hi
      exact ⟨ID, hID, Or.inr (Or.inl ⟨i, h, rfl⟩)⟩
    · obtain ⟨ID, hID, h⟩ := (exists_worker_iff hP j).2 hj
      exact ⟨ID, hID, Or.inr (Or.inr ⟨j, h, rfl⟩)⟩

theorem sample_write_eq_some {image : ppm_image} {index : Int} {i j : Nat} {k : Nat × Nat}
    {v : Fin 256} (h : some (k, v) = sample_write image index i j) :
    k = (i, j) ∧ ∃ px, read_pixel image index = some px ∧ v = threshold px := by
  unfold sample_write at h
  cases hpx : read_pixel image index with
  | none => simp [hpx] at h
  | some px =>
    simp only [hpx, Option.map_some', Option.some.injEq, Prod.mk.injEq] at h
    exact ⟨h.1, px, rfl, h.2⟩

/-- In the writes of a worker, and in those of all workers, a cell is only
    ever written with one value. -/
theorem sample_writes_unique (image : ppm_image) {k : Nat × Nat} {v v' : Fin 256}
    (h : is_sample_write image (some (k, v))) (h' : is_sample_write image (some (k, v'))) :
    v = v' := by
  unfold is_sample_write interior_write last_column_write last_row_write at h h'
  rcases h with ⟨i, j, hi, hj, hw⟩ | ⟨i, hi, hw⟩ | ⟨j, hj, hw⟩ <;>
  rcases h' with ⟨i', j', hi', hj', hw'⟩ | ⟨i', hi', hw'⟩ | ⟨j', hj', hw'⟩ <;>
  obtain ⟨hk, px, hpx, hv⟩ := sample_write_eq_some hw <;>
  obtain ⟨hk', px', hpx', hv'⟩ := sample_write_eq_some hw' <;>
  rw [hk] at hk' <;>
  simp only [Prod.mk.injEq] at hk' <;>
  obtain ⟨h1, h2⟩ := hk' <;>
  first
  | omega
  | (subst h1; subst h2; rw [hpx] at hpx'; cases hpx'; rw [hv, hv'])
  | (subst h1; rw [hpx] at hpx'; cases hpx'; rw [hv, hv'])
  | (subst h2; rw [hpx] at hpx'; cases hpx'; rw [hv, hv'])

theorem threshold_eq (px : ppm_pixel) :
    threshold px = if (px.red.val + px.green.val + px.blue.val) / 3 ≤ 200 then 1 else 0 := by
  unfold threshold
  have h1 := px.red.isLt
  have h2 := px.green.isLt
  have h3 := px.blue.isLt
  have h : (px.red.val + px.green.val + px.blue.val) / 3 % 256
      = (px.red.val + px.green.val + px.blue.val) / 3 := by omega
  simp only [h]
  by_cases hc : (px.red.val + px.green.val + px.blue.val) / 3 ≤ 200
  · have : ¬ (px.red.val + px.green.val + px.blue.val) / 3 > 200 := by omega
    simp [hc, this]
  · have : (px.red.val + px.green.val + px.blue.val) / 3 > 200 := by omega
    simp [hc, this]

theorem read_pixel_nat (image : ppm_image) (n : Nat) :
    read_pixel image (n : Int) = image.data[n]? := by
  unfold read_pixel
  simp


theorem mem_sample_writes_all (image : ppm_image) (ID P : Nat)
    (w : Option ((Nat × Nat) × Fin 256)) (h : w ∈ sample_writes image ID P) :
    is_sample_write image w := by
  rw [mem_sample_writes] at h
  rcases h with ⟨i, j, hi, hj, rfl⟩ | ⟨i, hi, rfl⟩ | ⟨j, hj, rfl⟩
  · exact Or.inl ⟨i, j, Nat.lt_of_lt_of_le hi.2 (range_end_le _ _ _), hj, rfl⟩
  · exact Or.inr (Or.inl ⟨i, Nat.lt_of_lt_of_le hi.2 (range_end_le _ _ _), rfl⟩)
  · exact Or.inr (Or.inr ⟨j, Nat.lt_of_lt_of_le hj.2 (range_end_le _ _ _), rfl⟩)

/-- A run of some writes of the sampling phase that returns has performed each of them. -/
theorem sample_run_cell {image : ppm_image} {ws : List (Option ((Nat × Nat) × Fin 256))}
    (hws : ∀ w ∈ ws, is_sample_write image w) {grid grid' : Grid}
    (h : apply_writes grid_wr grid ws = some grid') {index : Int} {i j : Nat}
    (hw : sample_write image index i j ∈ ws) :
    ∃ px, read_pixel image index = some px ∧ read_cell grid' i j = some (threshold px) := by
  have hsome : (apply_writes grid_wr grid ws).isSome := by rw [h]; rfl
  obtain ⟨k, v, hkv, -⟩ := (apply_writes_isSome_iff grid_laws ws grid).1 hsome _ hw
  obtain ⟨hk, px, hpx, hv⟩ := sample_write_eq_some hkv.symm
  refine ⟨px, hpx, ?_⟩
  rw [hkv] at hw
  have := apply_writes_rd_written grid_laws h hw
    (fun v' hv' => sample_writes_unique image (hws _ hv') (hws _ hw))
  rw [hk, hv] at this
  exact this

theorem last_column_index_eq (image : ppm_image) (i : Nat) (hx : 1 ≤ image.x) :
    ((i : Int) * STEP * image.y + image.x - 1)
      = ((i * STEP * image.y + image.x - 1 : Nat) : Int) := by
  have : ((i * STEP * image.y + image.x - 1 : Nat) : Int)
      = ((i * STEP * image.y + image.x : Nat) : Int) - 1 := by omega
  rw [this]
  push_cast
  rfl

theorem last_row_index_eq (image : ppm_image) (j : Nat) (hx : 1 ≤ image.x) :
    (((image.x : Int) - 1) * image.y + j * STEP)
      = (((image.x - 1) * image.y + j * STEP : Nat) : Int) := by
  have : ((image.x - 1 : Nat) : Int) = (image.x : Int) - 1 := by omega
  push_cast
  rw [this]

theorem block_row_bound {x y i : Nat} (hi : i < x / STEP) : i * STEP * y + STEP * y ≤ x * y := by
  have h1 : i * STEP + STEP ≤ x := by
    have := Nat.div_mul_le_self x STEP
    simp only [STEP] at *
    omega
  have h2 := Nat.mul_le_mul_right y h1
  rw [Nat.add_mul] at h2
  exact h2

theorem block_col_bound {y j : Nat} (hj : j < y / STEP) : j * STEP + STEP ≤ y := by
  have := Nat.div_mul_le_self y STEP
  simp only [STEP] at *
  omega

theorem last_row_bound {x y : Nat} (hx : 1 ≤ x) : (x - 1) * y + y = x * y := by
  obtain ⟨n, rfl⟩ : ∃ n, x = n + 1 := ⟨x - 1, by omega⟩
  simp [Nat.add_mul]

/-- Every write of the sampling phase is in range when the image holds
    `x * y` pixels, is not wider than `STEP` times its row length and the grid
    has the rows `0 .. p` and the columns `0 .. q`. -/
theorem sample_writes_in_range {image : ppm_image} {grid : Grid}
    (hdata : image.data.length = image.x * image.y) (hx : 1 ≤ image.x)
    (hxy : image.x ≤ STEP * image.y)
    (hgrid : ∀ i j, i ≤ image.x / STEP → j ≤ image.y / STEP → (read_cell grid i j).isSome)
    (w : Option ((Nat × Nat) × Fin 256)) (hw : is_sample_write image w) :
    ∃ k v, w = some (k, v) ∧ (grid_rd grid k).isSome := by
  rcases hw with ⟨i, j, hi, hj, rfl⟩ | ⟨i, hi, rfl⟩ | ⟨j, hj, rfl⟩
  · have h1 := @block_row_bound image.x image.y i hi
    have h2 := block_col_bound hj
    have hlt : i * STEP * image.y + j * STEP < image.data.length := by
      rw [hdata]; simp only [STEP] at *; omega
    refine ⟨(i, j), threshold image.data[i * STEP * image.y + j * STEP], ?_, ?_⟩
    · unfold interior_write sample_write
      rw [read_pixel_nat, List.getElem?_eq_getElem hlt]
      rfl
    · exact hgrid i j (by omega) (by omega)
  · have h1 := @block_row_bound image.x image.y i hi
    have hlt : i * STEP * image.y + image.x - 1 < image.data.length := by
      rw [hdata]; simp only [STEP] at *; omega
    refine ⟨(i, image.y / STEP), threshold image.data[i * STEP * image.y + image.x - 1], ?_, ?_⟩
    · unfold last_column_write sample_write
      rw [last_column_index_eq image i hx, read_pixel_nat, List.getElem?_eq_getElem hlt]
      rfl
    · exact hgrid i _ (by omega) (Nat.le_refl _)
  · have h2 := block_col_bound hj
    have h3 := @last_row_bound image.x image.y hx
    have hlt : (image.x - 1) * image.y + j * STEP < image.data.length := by
      rw [hdata]; simp only [STEP] at *; omega
    refine ⟨(image.x / STEP, j), threshold image.data[(image.x - 1) * image.y + j * STEP], ?_, ?_⟩
    · unfold last_row_write sample_write
      rw [last_row_index_eq image j hx, read_pixel_nat, List.getElem?_eq_getElem hlt]
      rfl
    · exact hgrid _ j (Nat.le_refl _) (by omega)

theorem sample_phase_defined {image : ppm_image} {grid : Grid} {P : Nat} (hP : 1 ≤ P)
    (hdata : image.data.length = image.x * image.y) (hx : 1 ≤ image.x)
    (hxy : image.x ≤ STEP * image.y)
    (hgrid : ∀ i j, i ≤ image.x / STEP → j ≤ image.y / STEP → (read_cell grid i j).isSome) :
    (sample_phase image grid P).isSome := by
  rw [sample_phase_eq, apply_writes_isSome_iff grid_laws]
  intro w hw
  exact sample_writes_in_range hdata hx hxy hgrid w ((mem_sample_all image hP w).1 hw)

theorem sample_grid_parallel_defined {image : ppm_image} {grid : Grid} (ID P : Nat)
    (hdata : image.data.length = image.x * image.y) (hx : 1 ≤ image.x)
    (hxy : image.x ≤ STEP * image.y)
    (hgrid : ∀ i j, i ≤ image.x / STEP → j ≤ image.y / STEP → (read_cell grid i j).isSome) :
    (sample_grid_parallel image grid ID P).isSome := by
  rw [sample_grid_parallel_eq, apply_writes_isSome_iff grid_laws]
  intro w hw
  exact sample_writes_in_range hdata hx hxy hgrid w (mem_sample_writes_all image ID P w hw)

/-! ## The writes of the marching phase -/

theorem pixel_eta (c : ppm_pixel) : (⟨c.red, c.green, c.blue⟩ : ppm_pixel) = c := by
  cases c
  rfl

theorem mem_tile_writes (image_y : Nat) (contour : ppm_image) (x y : Nat)
    (w : Option (Nat × ppm_pixel)) :
    w ∈ tile_writes image_y contour x y ↔
      ∃ a b, a < contour.x ∧ b < contour.y ∧
        w = (contour.data[contour.x * a + b]?).map (fun c => ((x + a) * image_y + y + b, c)) := by
  unfold tile_writes
  simp only [List.mem_flatMap, List.mem_map, mem_range'_iff, pixel_eta]
  constructor
  · rintro ⟨a, ha, b, hb, rfl⟩
    exact ⟨a, b, ha.2, hb.2, rfl⟩
  · rintro ⟨a, b, ha, hb, rfl⟩
    exact ⟨a, ⟨Nat.zero_le _, ha⟩, b, ⟨Nat.zero_le _, hb⟩, rfl⟩

theorem mem_march_writes (image_x image_y : Nat) (grid : Grid) (contour_map : List ppm_image)
    (ID P : Nat) (w : Option (Nat × ppm_pixel)) :
    w ∈ march_writes image_x image_y grid contour_map ID P ↔
      ∃ i j, (range_start ID (image_x / STEP) P ≤ i ∧ i < range_end ID (image_x / STEP) P) ∧
        j < image_y / STEP ∧ w ∈ block_writes image_y grid contour_map i j := by
  unfold march_writes
  simp only [List.mem_flatMap, mem_range'_iff]
  constructor
  · rintro ⟨i, hi, j, hj, hw⟩
    exact ⟨i, j, hi, hj.2, hw⟩
  · rintro ⟨i, j, hi, hj, hw⟩
    exact ⟨i, hi, j, ⟨Nat.zero_le _, hj⟩, hw⟩

theorem mem_march_all (image_x image_y : Nat) (grid : Grid) (contour_map : List ppm_image)
    {P : Nat} (hP : 1 ≤ P) (w : Option (Nat × ppm_pixel)) :
    w ∈ (List.range P).flatMap (fun ID => march_writes image_x image_y grid contour_map ID P) ↔
      ∃ i j, i < image_x / STEP ∧ j < image_y / STEP ∧
        w ∈ block_writes image_y grid contour_map i j := by
  simp only [List.mem_flatMap, mem_march_writes]
  constructor
  · rintro ⟨ID, hID, i, j, hi, hj, hw⟩
    exact ⟨i, j, (exists_worker_iff hP i).1 ⟨ID, hID, hi⟩, hj, hw⟩
  · rintro ⟨i, j, hi, hj, hw⟩
    obtain ⟨ID, hID, h⟩ := (exists_worker_iff hP i).2 hi
    exact ⟨ID, hID, i, j, h, hj, hw⟩

theorem block_tile_mem {grid : Grid} {contour_map : List ppm_image} {i j : Nat} {t : ppm_image}
    (h : block_tile grid contour_map i j = some t) : t ∈ contour_map := by
  unfold block_tile at h
  cases hk : config_index grid i j with
  | none => simp [hk] at h
  | some k =>
    simp only [hk, Option.some_bind] at h
    exact List.getElem?_mem h

/-- With `STEP` x `STEP` tiles, a write of block `(i, j)` goes to the pixel
    `(i * STEP + a, j * STEP + b)` and carries the pixel `(a, b)` of the tile. -/
theorem block_writes_some {image_y : Nat} {grid : Grid} {contour_map : List ppm_image}
    (htiles : tiles_are_step contour_map) {i j k : Nat} {v : ppm_pixel}
    (h : some (k, v) ∈ block_writes image_y grid contour_map i j) :
    ∃ t a b, block_tile grid contour_map i j = some t ∧ a < STEP ∧ b < STEP ∧
      t.data[STEP * a + b]? = some v ∧ k = (i * STEP + a) * image_y + j * STEP + b := by
  unfold block_writes at h
  cases ht : block_tile grid contour_map i j with
  | none => simp [ht] at h
  | some t =>
    simp only [ht] at h
    obtain ⟨hx, hy⟩ := htiles t (block_tile_mem ht)
    rw [mem_tile_writes] at h
    obtain ⟨a, b, ha, hb, hw⟩ := h
    rw [hx] at ha hw
    rw [hy] at hb
    cases hc : t.data[STEP * a + b]? with
    | none => simp [hc] at hw
    | some c =>
      simp only [hc, Option.map_some', Option.some.injEq, Prod.mk.injEq] at hw
      exact ⟨t, a, b, rfl, ha, hb, by rw [hw.2]; exact hc, hw.1⟩

theorem row_col_unique {y r c r' c' : Nat} (hc : c < y) (hc' : c' < y)
    (h : r * y + c = r' * y + c') : r = r' ∧ c = c' := by
  have hy : 0 < y := by omega
  have h1 : (r * y + c) / y = r := by
    rw [Nat.add_comm, Nat.add_mul_div_right _ _ hy, Nat.div_eq_of_lt hc, Nat.zero_add]
  have h2 : (r' * y + c') / y = r' := by
    rw [Nat.add_comm, Nat.add_mul_div_right _ _ hy, Nat.div_eq_of_lt hc', Nat.zero_add]
  have hr : r = r' := by rw [← h1, ← h2, h]
  subst hr
  exact ⟨rfl, by omega⟩

/-- With `STEP` x `STEP` tiles the blocks do not overlap: a pixel is only ever
    written with one value. -/
theorem march_writes_unique {image_y : Nat} {grid : Grid} {contour_map : List ppm_image}
    (htiles : tiles_are_step contour_map) {i j i' j' k : Nat} {v v' : ppm_pixel}
    (hj : j < image_y / STEP) (hj' : j' < image_y / STEP)
    (h : some (k, v) ∈ block_writes image_y grid contour_map i j)
    (h' : some (k, v') ∈ block_writes image_y grid contour_map i' j') : v = v' := by
  obtain ⟨t, a, b, ht, ha, hb, hv, hk⟩ := block_writes_some htiles h
  obtain ⟨t', a', b', ht', ha', hb', hv', hk'⟩ := block_writes_some htiles h'
  have h1 := block_col_bound hj
  have h2 := block_col_bound hj'
  rw [hk, Nat.add_assoc, Nat.add_assoc] at hk'
  obtain ⟨hr, hc⟩ := row_col_unique (by simp only [STEP] at *; omega)
    (by simp only [STEP] at *; omega) hk'
  have hi : i = i' := by simp only [STEP] at *; omega
  have hjj : j = j' := by simp only [STEP] at *; omega
  have haa : a = a' := by simp only [STEP] at *; omega
  have hbb : b = b' := by simp only [STEP] at *; omega
  subst hi hjj haa hbb
  rw [ht] at ht'
  cases ht'
  rw [hv] at hv'
  exact Option.some.inj hv'

theorem config_index_congr {g1 g2 : Grid} (h : ∀ k, grid_rd g1 k = grid_rd g2 k) (i j : Nat) :
    config_index g1 i j = config_index g2 i j := by
  unfold config_index
  have h1 := h (i, j)
  have h2 := h (i, j + 1)
  have h3 := h (i + 1, j + 1)
  have h4 := h (i + 1, j)
  unfold grid_rd at h1 h2 h3 h4
  simp only at h1 h2 h3 h4
  rw [h1, h2, h3, h4]

theorem march_writes_congr {g1 g2 : Grid} (h : ∀ k, grid_rd g1 k = grid_rd g2 k)
    (image_x image_y : Nat) (contour_map : List ppm_image) (ID P : Nat) :
    march_writes image_x image_y g1 contour_map ID P
      = march_writes image_x image_y g2 contour_map ID P := by
  unfold march_writes block_writes block_tile
  simp only [config_index_congr h]

theorem config_index_binary {grid : Grid} {rows cols i j : Nat}
    (hgrid : grid_is_binary grid rows cols) (hi : i + 1 < rows) (hj : j + 1 < cols) :
    ∃ k, config_index grid i j = some k ∧ k < CONTOUR_CONFIG_COUNT := by
  have h1 := hgrid i (by omega) j (by omega)
  have h2 := hgrid i (by omega) (j + 1) hj
  have h3 := hgrid (i + 1) hi (j + 1) hj
  have h4 := hgrid (i + 1) hi j (by omega)
  unfold config_index
  rcases h1 with h1 | h1 <;> rcases h2 with h2 | h2 <;> rcases h3 with h3 | h3 <;>
    rcases h4 with h4 | h4 <;> rw [h1, h2, h3, h4] <;> exact ⟨_, rfl, by decide⟩

/-- Every write of the marching phase is in range when the image holds
    `x * y` pixels, the grid is binary and there are sixteen tiles of
    `STEP * STEP` pixels. -/
theorem march_writes_in_range {image : ppm_image} {grid : Grid} {contour_map : List ppm_image}
    (hdata : image.data.length = image.x * image.y)
    (hlen : contour_map.length = CONTOUR_CONFIG_COUNT)
    (htiles : ∀ t ∈ contour_map, t.x = STEP ∧ t.y = STEP ∧ t.data.length = STEP * STEP)
    (hgrid : grid_is_binary grid (image.x / STEP + 1) (image.y / STEP + 1))
    {i j : Nat} (hi : i < image.x / STEP) (hj : j < image.y / STEP) :
    ∃ k t, config_index grid i j = some k ∧ contour_map[k]? = some t ∧
      ∀ a b, a < STEP → b < STEP → ∃ px, t.data[STEP * a + b]? = some px ∧
        some ((i * STEP + a) * image.y + j * STEP + b, px)
          ∈ block_writes image.y grid contour_map i j ∧
        (image_rd image ((i * STEP + a) * image.y + j * STEP + b)).isSome ∧
        ∀ w ∈ block_writes image.y grid contour_map i j, ∃ a b, a < STEP ∧ b < STEP ∧
          ∃ px, w = some ((i * STEP + a) * image.y + j * STEP + b, px) := by
  have hi' : i + 1 < image.x / STEP + 1 := by omega
  have hj' : j + 1 < image.y / STEP + 1 := by omega
  obtain ⟨k, hk, hk16⟩ := config_index_binary hgrid hi' hj'
  have hklt : k < contour_map.length := by rw [hlen]; exact hk16
  refine ⟨k, contour_map[k], hk, List.getElem?_eq_getElem hklt, ?_⟩
  obtain ⟨htx, hty, htd⟩ := htiles _ (List.getElem_mem hklt)
  have hbt : block_tile grid contour_map i j = some contour_map[k] := by
    unfold block_tile
    rw [hk]
    exact List.getElem?_eq_getElem hklt
  intro a b ha hb
  have hab : STEP * a + b < (contour_map[k]).data.length := by
    rw [htd]; simp only [STEP] at *; omega
  refine ⟨(contour_map[k]).data[STEP * a + b], List.getElem?_eq_getElem hab, ?_, ?_, ?_⟩
  · unfold block_writes
    rw [hbt]
    simp only
    rw [mem_tile_writes]
    refine ⟨a, b, by rw [htx]; exact ha, by rw [hty]; exact hb, ?_⟩
    rw [htx, List.getElem?_eq_getElem hab]
    rfl
  · unfold image_rd
    have h1 := @block_row_bound image.x image.y i hi
    have h2 := block_col_bound hj
    have h3 : (i * STEP + a) * image.y + image.y ≤ i * STEP * image.y + STEP * image.y := by
      have : (i * STEP + a + 1) * image.y ≤ (i * STEP + STEP) * image.y :=
        Nat.mul_le_mul_right _ (by simp only [STEP] at *; omega)
      rw [Nat.add_mul, Nat.add_mul _ STEP] at this
      simp only [Nat.one_mul] at this
      exact this
    have hlt : (i * STEP + a) * image.y + j * STEP + b < image.data.length := by
      rw [hdata]; simp only [STEP] at *; omega
    rw [List.getElem?_eq_getElem hlt]
    rfl
  · intro w hw
    unfold block_writes at hw
    rw [hbt] at hw
    simp only at hw
    rw [mem_tile_writes] at hw
    obtain ⟨a', b', ha', hb', rfl⟩ := hw
    rw [htx] at ha'
    rw [hty] at hb'
    have hab' : STEP * a' + b' < (contour_map[k]).data.length := by
      rw [htd]; simp only [STEP] at *; omega
    refine ⟨a', b', ha', hb', (contour_map[k]).data[STEP * a' + b'], ?_⟩
    rw [htx, List.getElem?_eq_getElem hab']
    rfl

theorem image_ext_of_rd {im1 im2 : ppm_image} (hx : im1.x = im2.x) (hy : im1.y = im2.y)
    (h : ∀ k, image_rd im1 k = image_rd im2 k) : im1 = im2 := by
  cases im1
  cases im2
  simp only at hx hy
  subst hx hy
  have : ∀ n : Nat, (ppm_image.data _)[n]? = (ppm_image.data _)[n]? := h
  simp only [ppm_image.mk.injEq, true_and]
  exact List.ext_getElem? h

/-- The sampling phase with `P` workers and with one worker fail together
    and otherwise leave grids with the same cells. -/
theorem sample_phase_congr (image : ppm_image) (grid : Grid) {P : Nat} (hP : 1 ≤ P) :
    ((sample_phase image grid P).isSome ↔ (sample_phase image grid 1).isSome) ∧
    ∀ g1 g2, sample_phase image grid P = some g1 → sample_phase image grid 1 = some g2 →
      ∀ k, grid_rd g1 k = grid_rd g2 k := by
  rw [sample_phase_eq, sample_phase_eq]
  refine apply_writes_congr_mem grid_laws ?_ ?_ grid
  · intro w
    rw [mem_sample_all image hP, mem_sample_all image (Nat.le_refl 1)]
  · intro k v v' h h'
    exact sample_writes_unique image ((mem_sample_all image hP _).1 h)
      ((mem_sample_all image hP _).1 h')

/-- With `STEP` x `STEP` tiles, the marching phase with `P` workers and with
    one worker give the same result. -/
theorem march_phase_congr (image : ppm_image) (grid : Grid) {contour_map : List ppm_image}
    (htiles : tiles_are_step contour_map) {P : Nat} (hP : 1 ≤ P) :
    march_phase image grid contour_map P = march_phase image grid contour_map 1 := by
  rw [march_phase_eq, march_phase_eq]
  have hmem : ∀ w, w ∈ (List.range P).flatMap
        (fun ID => march_writes image.x image.y grid contour_map ID P) ↔
      w ∈ (List.range 1).flatMap
        (fun ID => march_writes image.x image.y grid contour_map ID 1) := by
    intro w
    rw [mem_march_all _ _ _ _ hP, mem_march_all _ _ _ _ (Nat.le_refl 1)]
  have huniq : ∀ k v v', some (k, v) ∈ (List.range P).flatMap
        (fun ID => march_writes image.x image.y grid contour_map ID P) →
      some (k, v') ∈ (List.range P).flatMap
        (fun ID => march_writes image.x image.y grid contour_map ID P) → v = v' := by
    intro k v v' h h'
    obtain ⟨i, j, -, hj, hw⟩ := (mem_march_all _ _ _ _ hP _).1 h
    obtain ⟨i', j', -, hj', hw'⟩ := (mem_march_all _ _ _ _ hP _).1 h'
    exact march_writes_unique htiles hj hj' hw hw'
  obtain ⟨hsome, hrd⟩ := apply_writes_congr_mem image_laws hmem huniq image
  cases h1 : apply_writes image_wr image ((List.range P).flatMap
      (fun ID => march_writes image.x image.y grid contour_map ID P)) with
  | none =>
    cases h2 : apply_writes image_wr image ((List.range 1).flatMap
        (fun ID => march_writes image.x image.y grid contour_map ID 1)) with
    | none => rfl
    | some im2 =>
      rw [h1, h2] at hsome
      simp at hsome
  | some im1 =>
    cases h2 : apply_writes image_wr image ((List.range 1).flatMap
        (fun ID => march_writes image.x image.y grid contour_map ID 1)) with
    | none =>
      rw [h1, h2] at hsome
      simp at hsome
    | some im2 =>
      have d1 := apply_writes_image_dims h1
      have d2 := apply_writes_image_dims h2
      rw [image_ext_of_rd (d1.1.trans d2.1.symm) (d1.2.trans d2.2.symm) (hrd im1 im2 h1 h2)]

theorem march_phase_grid_congr {g1 g2 : Grid} (h : ∀ k, grid_rd g1 k = grid_rd g2 k)
    (image : ppm_image) (contour_map : List ppm_image) (P : Nat) :
    march_phase image g1 contour_map P = march_phase image g2 contour_map P := by
  rw [march_phase_eq, march_phase_eq]
  simp only [march_writes_congr h]

/-! ## The marching phase stamps the selected tiles -/

/-- C2: on an image of `x * y` pixels, with sixteen 8 x 8 tiles and a binary
    grid, `march_parallel` of worker `ID < P` returns, and afterwards, for
    every block row `i` of the worker, every block column `j < q` and all
    `a, b < 8`, the pixel at row `8 i + a`, column `8 j + b` is the pixel
    `(a, b)` (index `8 a + b`) of the tile whose number is the configuration
    index of the block `(i, j)`. -/
theorem march_parallel_stamps (image : ppm_image) (grid : Grid) (contour_map : List ppm_image)
    (ID P : Nat) (hID : ID < P) (hdata : image.data.length = image.x * image.y)
    (hlen : contour_map.length = CONTOUR_CONFIG_COUNT)
    (htiles : ∀ t ∈ contour_map, t.x = STEP ∧ t.y = STEP ∧ t.data.length = STEP * STEP)
    (hgrid : grid_is_binary grid (image.x / STEP + 1) (image.y / STEP + 1)) :
    ∃ image', march_parallel image grid contour_map ID P = some image' ∧
      image'.x = image.x ∧ image'.y = image.y ∧
      ∀ i j a b, range_start ID (image.x / STEP) P ≤ i → i < range_end ID (image.x / STEP) P →
        j < image.y / STEP → a < STEP → b < STEP →
        ∃ k contour px, config_index grid i j = some k ∧ contour_map[k]? = some contour ∧
          contour.data[STEP * a + b]? = some px ∧
          image'.data[(i * STEP + a) * image.y + j * STEP + b]? = some px := by
  have hstep : tiles_are_step contour_map := fun t ht => ⟨(htiles t ht).1, (htiles t ht).2.1⟩
  have hsome : (march_parallel image grid contour_map ID P).isSome := by
    rw [march_parallel_eq, apply_writes_isSome_iff image_laws]
    intro w hw
    obtain ⟨i, j, hi, hj, hwb⟩ := (mem_march_writes _ _ _ _ _ _ _).1 hw
    have hip := Nat.lt_of_lt_of_le hi.2 (range_end_le _ _ _)
    obtain ⟨k, t, -, -, hall⟩ := march_writes_in_range hdata hlen htiles hgrid hip hj
    obtain ⟨-, -, -, -, hin⟩ := hall 0 0 (by decide) (by decide)
    obtain ⟨a, b, ha, hb, px, rfl⟩ := hin w hwb
    obtain ⟨-, -, -, hrd, -⟩ := hall a b ha hb
    exact ⟨_, _, rfl, hrd⟩
  obtain ⟨image', himage'⟩ := Option.isSome_iff_exists.1 hsome
  refine ⟨image', himage', ?_⟩
  rw [march_parallel_eq] at himage'
  refine ⟨(apply_writes_image_dims himage').1, (apply_writes_image_dims himage').2, ?_⟩
  intro i j a b hi1 hi2 hj ha hb
  have hip := Nat.lt_of_lt_of_le hi2 (range_end_le _ _ _)
  obtain ⟨k, t, hk, ht, hall⟩ := march_writes_in_range hdata hlen htiles hgrid hip hj
  obtain ⟨px, hpx, hmem, -, -⟩ := hall a b ha hb
  refine ⟨k, t, px, hk, ht, hpx, ?_⟩
  have hw : some ((i * STEP + a) * image.y + j * STEP + b, px)
      ∈ march_writes image.x image.y grid contour_map ID P :=
    (mem_march_writes _ _ _ _ _ _ _).2 ⟨i, j, ⟨hi1, hi2⟩, hj, hmem⟩
  exact apply_writes_rd_written image_laws himage' hw (fun v' hv' => by
    obtain ⟨i', j', -, hj', hwb'⟩ := (mem_march_writes _ _ _ _ _ _ _).1 hv'
    exact march_writes_unique hstep hj' hj hwb' hmem)

set_option maxRecDepth 100000 in
/-- Witness for C2: worker 1 of 2 on the 16 x 16 bright image. -/
theorem march_parallel_stamps_witness :
    1 < 2 ∧ bright_image.data.length = bright_image.x * bright_image.y ∧
    numbered_tiles.length = CONTOUR_CONFIG_COUNT ∧
    (∀ t ∈ numbered_tiles, t.x = STEP ∧ t.y = STEP ∧ t.data.length = STEP * STEP) ∧
    grid_is_binary (filled_grid 3 3 0) (bright_image.x / STEP + 1) (bright_image.y / STEP + 1) ∧
    ∃ image', march_parallel bright_image (filled_grid 3 3 0) numbered_tiles 1 2 = some image' ∧
      image'.x = bright_image.x ∧ image'.y = bright_image.y ∧
      ∀ i j a b, range_start 1 (bright_image.x / STEP) 2 ≤ i →
        i < range_end 1 (bright_image.x / STEP) 2 →
        j < bright_image.y / STEP → a < STEP → b < STEP →
        ∃ k contour px, config_index (filled_grid 3 3 0) i j = some k ∧
          numbered_tiles[k]? = some contour ∧
          contour.data[STEP * a + b]? = some px ∧
          image'.data[(i * STEP + a) * bright_image.y + j * STEP + b]? = some px :=
  ⟨by decide, by decide, by decide, by decide, by decide,
    march_parallel_stamps bright_image (filled_grid 3 3 0) numbered_tiles 1 2
      (by decide) (by decide) (by decide) (by decide) (by decide)⟩

/-! ## The sampling phase -/

/-- C3: after all `P ≥ 1` workers have run `sample_grid_parallel`, every
    interior cell `(i, j)`, `i < p`, `j < q`, holds 1 if `(r + g + b) / 3` of
    the pixel at row `8 i`, column `8 j` is at most `SIGMA = 200`, and 0
    otherwise.  The phase returns on every image of `x * y` pixels with
    `1 ≤ x ≤ 8 y` and a grid with the rows `0 .. p` and the columns `0 .. q`. -/
theorem sample_phase_interior (image : ppm_image) (grid : Grid) (P : Nat) (hP : 1 ≤ P) :
    ((image.data.length = image.x * image.y ∧ 1 ≤ image.x ∧ image.x ≤ STEP * image.y ∧
        grid_has grid (image.x / STEP + 1) (image.y / STEP + 1)) →
      (sample_phase image grid P).isSome) ∧
    ∀ grid', sample_phase image grid P = some grid' →
      ∀ i j, i < image.x / STEP → j < image.y / STEP →
        ∃ px, image.data[i * STEP * image.y + j * STEP]? = some px ∧
          read_cell grid' i j
            = some (if (px.red.val + px.green.val + px.blue.val) / 3 ≤ SIGMA then 1 else 0) := by
  constructor
  · rintro ⟨hdata, hx, hxy, hgrid⟩
    exact sample_phase_defined hP hdata hx hxy
      (fun i j hi hj => hgrid i (by omega) j (by omega))
  · intro grid' h i j hi hj
    rw [sample_phase_eq] at h
    have hw : sample_write image (((i * STEP * image.y + j * STEP : Nat) : Int)) i j
        ∈ (List.range P).flatMap (fun ID => sample_writes image ID P) :=
      (mem_sample_all image hP _).2 (Or.inl ⟨i, j, hi, hj, rfl⟩)
    obtain ⟨px, hpx, hcell⟩ := sample_run_cell (fun w hw => (mem_sample_all image hP w).1 hw) h hw
    rw [read_pixel_nat] at hpx
    rw [threshold_eq] at hcell
    exact ⟨px, hpx, hcell⟩

set_option maxRecDepth 100000 in
/-- Witness for C3: two workers on the 16 x 16 bright image; the phase returns. -/
theorem sample_phase_interior_witness :
    1 ≤ 2 ∧ (sample_phase bright_image (filled_grid 3 3 7) 2).isSome ∧
    ∀ grid', sample_phase bright_image (filled_grid 3 3 7) 2 = some grid' →
      ∀ i j, i < bright_image.x / STEP → j < bright_image.y / STEP →
        ∃ px, bright_image.data[i * STEP * bright_image.y + j * STEP]? = some px ∧
          read_cell grid' i j
            = some (if (px.red.val + px.green.val + px.blue.val) / 3 ≤ SIGMA then 1 else 0) :=
  ⟨by decide,
    (sample_phase_interior bright_image (filled_grid 3 3 7) 2 (by decide)).1
      ⟨by decide, by decide, by decide, by decide⟩,
    (sample_phase_interior bright_image (filled_grid 3 3 7) 2 (by decide)).2⟩

/-! ## The configuration index -/

/-- C4: at a block `(i, j)` whose four cells are bits, `march_parallel`
    stamps the tile number
    `8 * grid[i][j] + 4 * grid[i][j+1] + 2 * grid[i+1][j+1] + 1 * grid[i+1][j]`
    (top left, top right, bottom right, bottom left); the cells 1, 0, 1, 0
    give the number 10. -/
theorem march_block_selects (grid : Grid) (contour_map : List ppm_image) (i j : Nat)
    (image : ppm_image) (tl tr br bl : Fin 256)
    (htl : read_cell grid i j = some tl) (htr : read_cell grid i (j + 1) = some tr)
    (hbr : read_cell grid (i + 1) (j + 1) = some br) (hbl : read_cell grid (i + 1) j = some bl)
    (hbits : tl.val ≤ 1 ∧ tr.val ≤ 1 ∧ br.val ≤ 1 ∧ bl.val ≤ 1) :
    config_index grid i j = some (8 * tl.val + 4 * tr.val + 2 * br.val + 1 * bl.val) ∧
    march_block grid contour_map i j image
      = (contour_map[8 * tl.val + 4 * tr.val + 2 * br.val + 1 * bl.val]?).bind
          (fun contour => update_image_parallel image contour (i * STEP) (j * STEP)) ∧
    config_of 1 0 1 0 = 10 := by
  have hk : config_index grid i j
      = some (8 * tl.val + 4 * tr.val + 2 * br.val + 1 * bl.val) := by
    unfold config_index
    rw [htl, htr, hbr, hbl]
    have : config_of tl tr br bl = 8 * tl.val + 4 * tr.val + 2 * br.val + 1 * bl.val := by
      unfold config_of
      omega
    simp [this]
  refine ⟨hk, ?_, by decide⟩
  unfold march_block
  rw [hk]
  rfl

/-- Witness for C4: the block `(0, 0)` of a grid whose cells are all 1. -/
theorem march_block_selects_witness :
    read_cell (filled_grid 2 2 1) 0 0 = some 1 ∧ read_cell (filled_grid 2 2 1) 0 (0 + 1) = some 1 ∧
    read_cell (filled_grid 2 2 1) (0 + 1) (0 + 1) = some 1 ∧
    read_cell (filled_grid 2 2 1) (0 + 1) 0 = some 1 ∧
    ((1 : Fin 256).val ≤ 1 ∧ (1 : Fin 256).val ≤ 1 ∧ (1 : Fin 256).val ≤ 1 ∧
      (1 : Fin 256).val ≤ 1) ∧
    (config_index (filled_grid 2 2 1) 0 0
      = some (8 * (1 : Fin 256).val + 4 * (1 : Fin 256).val + 2 * (1 : Fin 256).val
          + 1 * (1 : Fin 256).val) ∧
    march_block (filled_grid 2 2 1) numbered_tiles 0 0 one_block_image
      = (numbered_tiles[8 * (1 : Fin 256).val + 4 * (1 : Fin 256).val + 2 * (1 : Fin 256).val
          + 1 * (1 : Fin 256).val]?).bind
          (fun contour => update_image_parallel one_block_image contour (0 * STEP) (0 * STEP)) ∧
    config_of 1 0 1 0 = 10) :=
  ⟨by decide, by decide, by decide, by decide, by decide,
    march_block_selects (filled_grid 2 2 1) numbered_tiles 0 0 one_block_image 1 1 1 1
      (by decide) (by decide) (by decide) (by decide) (by decide)⟩

/-! ## The boundary cells of the grid -/

set_option maxRecDepth 100000 in
/-- C5: on the one-block 8 x 8 image (`p = q = 1`) and a grid buffer that
    holds 7 everywhere, the sampling phase assigns the cells `(0, 0)`,
    `(0, 1)` and `(1, 0)` and leaves the corner `(p, q) = (1, 1)` at 7; the
    marching phase then reads that cell for the block `(0, 0)`. -/
theorem corner_cell_not_sampled :
    sample_phase one_block_image (filled_grid 2 2 7) 1 = some [[0, 0], [0, 7]] ∧
    config_index [[0, 0], [0, 7]] 0 0 = some (2 * 7) := by
  decide

set_option maxRecDepth 100000 in
/-- C6: on an image of 8 rows and 16 columns, `sample_grid_parallel` sets the
    last-column cell `grid[0][q]`, `q = 2`, from the pixel at index
    `0 * STEP * y + x - 1 = 7` (row 0, column 7, dark, cell 1) and not from the
    pixel in the last column, index `0 * STEP * y + y - 1 = 15` (bright, cell 0). -/
theorem last_column_reads_column_x :
    sample_grid_parallel wide_image (filled_grid 2 3 7) 0 1 = some [[0, 0, 1], [0, 0, 7]] ∧
    (wide_image.data[0 * STEP * wide_image.y + wide_image.x - 1]?).map threshold = some 1 ∧
    (wide_image.data[0 * STEP * wide_image.y + wide_image.y - 1]?).map threshold = some 0 := by
  decide

/-- C7: when `sample_grid_parallel` of worker `ID < P` returns, every bottom
    cell `grid[p][j]` with `j` in `[start_y, end_y)` holds the binarisation
    (1 iff `(r + g + b) / 3 ≤ 200`) of the pixel in the last row `x - 1` at
    column `j * STEP`.  The routine returns on every image of `x * y` pixels
    with `1 ≤ x ≤ 8 y` and a grid with the rows `0 .. p` and the columns `0 .. q`. -/
theorem sample_last_row (image : ppm_image) (grid : Grid) (ID P : Nat) (hID : ID < P) :
    ((image.data.length = image.x * image.y ∧ 1 ≤ image.x ∧ image.x ≤ STEP * image.y ∧
        grid_has grid (image.x / STEP + 1) (image.y / STEP + 1)) →
      (sample_grid_parallel image grid ID P).isSome) ∧
    ∀ grid', sample_grid_parallel image grid ID P = some grid' →
      ∀ j, range_start ID (image.y / STEP) P ≤ j → j < range_end ID (image.y / STEP) P →
        1 ≤ image.x ∧
        ∃ px, image.data[(image.x - 1) * image.y + j * STEP]? = some px ∧
          read_cell grid' (image.x / STEP) j
            = some (if (px.red.val + px.green.val + px.blue.val) / 3 ≤ SIGMA then 1 else 0) := by
  constructor
  · rintro ⟨hdata, hx, hxy, hgrid⟩
    exact sample_grid_parallel_defined ID P hdata hx hxy
      (fun i j hi hj => hgrid i (by omega) j (by omega))
  · intro grid' h j hj1 hj2
    rw [sample_grid_parallel_eq] at h
    have hw : sample_write image (((image.x : Int) - 1) * image.y + j * STEP) (image.x / STEP) j
        ∈ sample_writes image ID P :=
      (mem_sample_writes image ID P _).2 (Or.inr (Or.inr ⟨j, ⟨hj1, hj2⟩, rfl⟩))
    obtain ⟨px, hpx, hcell⟩ := sample_run_cell (mem_sample_writes_all image ID P) h hw
    have hjq := block_col_bound (Nat.lt_of_lt_of_le hj2 (range_end_le _ _ _))
    have hx : 1 ≤ image.x := by
      by_contra hcon
      have h0 : image.x = 0 := by omega
      unfold read_pixel at hpx
      rw [h0] at hpx
      split at hpx
      · rename_i hge
        simp only [STEP] at *
        push_cast at hge
        omega
      · cases hpx
    rw [last_row_index_eq image j hx, read_pixel_nat] at hpx
    rw [threshold_eq] at hcell
    exact ⟨hx, px, hpx, hcell⟩

set_option maxRecDepth 100000 in
/-- Witness for C7: worker 1 of 2 on the 16 x 16 bright image; the routine returns. -/
theorem sample_last_row_witness :
    1 < 2 ∧ (sample_grid_parallel bright_image (filled_grid 3 3 7) 1 2).isSome ∧
    ∀ grid', sample_grid_parallel bright_image (filled_grid 3 3 7) 1 2 = some grid' →
      ∀ j, range_start 1 (bright_image.y / STEP) 2 ≤ j →
        j < range_end 1 (bright_image.y / STEP) 2 →
        1 ≤ bright_image.x ∧
        ∃ px, bright_image.data[(bright_image.x - 1) * bright_image.y + j * STEP]? = some px ∧
          read_cell grid' (bright_image.x / STEP) j
            = some (if (px.red.val + px.green.val + px.blue.val) / 3 ≤ SIGMA then 1 else 0) :=
  ⟨by decide,
    (sample_last_row bright_image (filled_grid 3 3 7) 1 2 (by decide)).1
      ⟨by decide, by decide, by decide, by decide⟩,
    (sample_last_row bright_image (filled_grid 3 3 7) 1 2 (by decide)).2⟩

/-! ## Independence of the number of workers -/

/-- C8: with 8 x 8 tiles, for every image, every initial grid buffer and
    every `P ≥ 1`, the sampling phase of `P` workers followed by the marching
    phase of `P` workers gives the same result as with one worker. -/
theorem worker_count_independent (image : ppm_image) (grid : Grid)
    (contour_map : List ppm_image) (P : Nat) (hP : 1 ≤ P)
    (htiles : ∀ t ∈ contour_map, t.x = STEP ∧ t.y = STEP) :
    sample_then_march image grid contour_map P = sample_then_march image grid contour_map 1 := by
  obtain ⟨hsome, hrd⟩ := sample_phase_congr image grid hP
  unfold sample_then_march
  cases h1 : sample_phase image grid P with
  | none =>
    cases h2 : sample_phase image grid 1 with
    | none => rfl
    | some g2 =>
      rw [h1, h2] at hsome
      simp at hsome
  | some g1 =>
    cases h2 : sample_phase image grid 1 with
    | none =>
      rw [h1, h2] at hsome
      simp at hsome
    | some g2 =>
      show march_phase image g1 contour_map P = march_phase image g2 contour_map 1
      rw [march_phase_grid_congr (hrd g1 g2 h1 h2), march_phase_congr image g2 htiles hP]

set_option maxRecDepth 1000000 in
/-- Witness for C8: the 16 x 16 image whose every channel is 255, with four
    workers; the run with one worker returns an image. -/
theorem worker_count_independent_witness :
    1 ≤ 4 ∧ (∀ t ∈ numbered_tiles, t.x = STEP ∧ t.y = STEP) ∧
    (sample_then_march bright_image (filled_grid 17 17 0) numbered_tiles 1).isSome ∧
    sample_then_march bright_image (filled_grid 17 17 0) numbered_tiles 4
      = sample_then_march bright_image (filled_grid 17 17 0) numbered_tiles 1 :=
  ⟨by decide, by decide, by decide,
    worker_count_independent bright_image (filled_grid 17 17 0) numbered_tiles 4
      (by decide) (by decide)⟩

set_option maxRecDepth 100000 in
/-- C9: on the one-block 8 x 8 image with one worker, two runs that differ
    only in what the grid buffer held before sampling (0 everywhere, 1
    everywhere) stamp different tiles: tile 0 in the first run, tile 2 in the
    second, because the corner cell `(1, 1)` is read but never sampled. -/
theorem output_depends_on_stale_grid :
    sample_then_march one_block_image (filled_grid 2 2 0) numbered_tiles 1
      = some { x := 8, y := 8, data := List.replicate 64 ⟨0, 0, 0⟩ } ∧
    sample_then_march one_block_image (filled_grid 2 2 1) numbered_tiles 1
      = some { x := 8, y := 8, data := List.replicate 64 ⟨2, 0, 0⟩ } := by
  decide

/-! ## Rescaling an image that already fits -/

theorem foldlM_some_self {α ι : Type} (f : α → ι → Option α) (l : List ι) (a : α)
    (h : ∀ a i, f a i = some a) : l.foldlM f a = some a := by
  induction l with
  | nil => rfl
  | cons i l ih =>
    rw [List.foldlM_cons, h a i]
    exact ih

/-- C10: for a source image with `x ≤ 2048` and `y ≤ 2048`,
    `rescale_image_parallel` returns the destination buffer untouched for
    every `(ID, P)`, the buffer that `main` sets up is the source image (same
    `x`, `y` and pixel data), and so is the buffer after the rescaling phase. -/
theorem rescale_noop (sample_bicubic : ppm_image → Nat → Nat → Nat → Nat → ppm_pixel)
    (image : ppm_image) (fresh : List ppm_pixel) (ID P : Nat)
    (hx : image.x ≤ RESCALE_X) (hy : image.y ≤ RESCALE_Y) :
    (∀ new_image, rescale_image_parallel sample_bicubic image new_image ID P = some new_image) ∧
    main_new_image image fresh = image ∧
    rescale_phase sample_bicubic image (main_new_image image fresh) P = some image := by
  have h1 : ∀ new_image ID, rescale_image_parallel sample_bicubic image new_image ID P
      = some new_image := by
    intro new_image ID
    unfold rescale_image_parallel
    rw [if_pos ⟨hx, hy⟩]
  have h2 : main_new_image image fresh = image := by
    unfold main_new_image
    rw [if_pos ⟨hx, hy⟩]
  refine ⟨fun new_image => h1 new_image ID, h2, ?_⟩
  unfold rescale_phase
  rw [h2]
  exact foldlM_some_self _ _ _ h1

/-- Witness for C10: the 16 x 16 bright image, worker 1 of 4. -/
theorem rescale_noop_witness :
    bright_image.x ≤ RESCALE_X ∧ bright_image.y ≤ RESCALE_Y ∧
    ((∀ new_image, rescale_image_parallel (fun _ _ _ _ _ => dark) bright_image new_image 1 4
        = some new_image) ∧
    main_new_image bright_image [] = bright_image ∧
    rescale_phase (fun _ _ _ _ _ => dark) bright_image (main_new_image bright_image []) 4
      = some bright_image) :=
  ⟨by decide, by decide,
    rescale_noop (fun _ _ _ _ _ => dark) bright_image [] 1 4 (by decide) (by decide)⟩

/-! ## The size of a worker's range -/

theorem div_succ_bounds (a N P : Nat) (hP : 1 ≤ P) :
    a / P + N / P ≤ (a + N) / P ∧ (a + N) / P ≤ a / P + N / P + 1 := by
  have h1 := Nat.div_add_mod a P
  have h2 := Nat.div_add_mod N P
  have h3 := Nat.mod_lt a hP
  have h4 := Nat.mod_lt N hP
  constructor
  · rw [Nat.le_div_iff_mul_le hP, Nat.add_mul, Nat.mul_comm (a / P), Nat.mul_comm (N / P)]
    omega
  · have : (a + N) / P < a / P + N / P + 1 + 1 := by
      rw [Nat.div_lt_iff_lt_mul hP, Nat.add_mul, Nat.add_mul, Nat.add_mul,
        Nat.mul_comm (a / P), Nat.mul_comm (N / P)]
      omega
    omega

theorem range_size (ID N P : Nat) (hP : 1 ≤ P) (hID : ID < P) :
    range_end ID N P = (ID * N + N) / P ∧
    range_start ID N P + N / P ≤ range_end ID N P ∧
    range_end ID N P ≤ range_start ID N P + N / P + 1 ∧
    (N % P = 0 → range_end ID N P = range_start ID N P + N / P) := by
  have hend : range_end ID N P = (ID * N + N) / P := by
    unfold range_end Tema1.min
    have hle : (ID + 1) * N / P ≤ N := by
      have h1 : (ID + 1) * N ≤ P * N := Nat.mul_le_mul_right N hID
      calc (ID + 1) * N / P ≤ P * N / P := Nat.div_le_div_right h1
        _ = N := Nat.mul_div_cancel_left N hP
    have : (ID + 1) * N = ID * N + N := by rw [Nat.add_mul, Nat.one_mul]
    rw [this] at hle ⊢
    split <;> omega
  have hb := div_succ_bounds (ID * N) N P hP
  refine ⟨hend, ?_, ?_, ?_⟩
  · rw [hend]; unfold range_start; exact hb.1
  · rw [hend]; unfold range_start; exact hb.2
  · intro hmod
    rw [hend]
    unfold range_start
    have hN : N = P * (N / P) := by
      have := Nat.div_add_mod N P
      omega
    have h1 : ID * N = P * (ID * (N / P)) := by
      conv_lhs => rw [hN]
      rw [Nat.mul_left_comm]
    have h2 : ID * N + N = P * (ID * (N / P) + N / P) := by
      rw [Nat.mul_add, ← h1, ← hN]
    rw [h2, h1, Nat.mul_div_cancel_left _ hP, Nat.mul_div_cancel_left _ hP]

theorem ceil_div_eq (N P : Nat) (hP : 1 ≤ P) (hmod : N % P ≠ 0) : (N + P - 1) / P = N / P + 1 := by
  have h2 := Nat.div_add_mod N P
  have h4 := Nat.mod_lt N hP
  have h5 : N + P - 1 = (N % P - 1) + P * (N / P + 1) := by
    rw [Nat.mul_add]
    omega
  rw [h5, Nat.add_mul_div_left _ _ hP, Nat.div_eq_of_lt (by omega), Nat.zero_add]

/-- C19: for `P ≥ 1` and `ID < P`, the size `end - start` of the worker's
    range is `⌊N / P⌋` or `⌈N / P⌉ = (N + P - 1) / P`, so the sizes of the
    ranges of two workers differ by at most one. -/
theorem range_size_balanced (P N ID : Nat) (hP : 1 ≤ P) (hID : ID < P) :
    (range_end ID N P - range_start ID N P = N / P ∨
      range_end ID N P - range_start ID N P = (N + P - 1) / P) ∧
    ∀ ID', ID' < P →
      range_end ID N P - range_start ID N P ≤ range_end ID' N P - range_start ID' N P + 1 := by
  obtain ⟨-, h1, h2, h3⟩ := range_size ID N P hP hID
  constructor
  · by_cases hmod : N % P = 0
    · left
      have h4 := h3 hmod
      generalize N / P = q0 at h1 h2 h4 ⊢
      omega
    · rw [ceil_div_eq N P hP hmod]
      generalize N / P = q0 at h1 h2 ⊢
      omega
  · intro ID' hID'
    obtain ⟨-, h1', h2', -⟩ := range_size ID' N P hP hID'
    generalize N / P = q0 at h1 h2 h1' h2'
    omega

/-- Witness for C19: worker 2 of 4 on ten rows. -/
theorem range_size_balanced_witness :
    1 ≤ 4 ∧ 2 < 4 ∧
    ((range_end 2 10 4 - range_start 2 10 4 = 10 / 4 ∨
      range_end 2 10 4 - range_start 2 10 4 = (10 + 4 - 1) / 4) ∧
    ∀ ID', ID' < 4 →
      range_end 2 10 4 - range_start 2 10 4 ≤ range_end ID' 10 4 - range_start ID' 10 4 + 1) :=
  ⟨by decide, by decide, range_size_balanced 4 10 2 (by decide) (by decide)⟩

/-! ## The dimensions of the rescaled buffer -/

theorem rescale_image_parallel_dims
    {sample_bicubic : ppm_image → Nat → Nat → Nat → Nat → ppm_pixel}
    {image new_image scaled : ppm_image} {ID P : Nat}
    (h : rescale_image_parallel sample_bicubic image new_image ID P = some scaled) :
    scaled.x = new_image.x ∧ scaled.y = new_image.y := by
  unfold rescale_image_parallel at h
  split at h
  · cases h
    exact ⟨rfl, rfl⟩
  · simp only [Option.map_eq_some'] at h
    obtain ⟨data, -, rfl⟩ := h
    exact ⟨rfl, rfl⟩

theorem rescale_phase_dims
    {sample_bicubic : ppm_image → Nat → Nat → Nat → Nat → ppm_pixel}
    {image new_image scaled : ppm_image} {P : Nat}
    (h : rescale_phase sample_bicubic image new_image P = some scaled) :
    scaled.x = new_image.x ∧ scaled.y = new_image.y := by
  unfold rescale_phase at h
  generalize List.range P = l at h
  induction l generalizing new_image with
  | nil =>
    cases h
    exact ⟨rfl, rfl⟩
  | cons ID l ih =>
    rw [List.foldlM_cons] at h
    cases h1 : rescale_image_parallel sample_bicubic image new_image ID P with
    | none => simp [h1] at h
    | some s1 =>
      rw [h1] at h
      have d1 := rescale_image_parallel_dims h1
      have d2 := ih h
      exact ⟨d2.1.trans d1.1, d2.2.trans d1.2⟩

/-- C11: for a source image with `x > 2048` or `y > 2048`, the buffer that
    `main` sets up is 2048 x 2048, and so is the buffer that the rescaling
    phase returns. -/
theorem rescale_bounds (sample_bicubic : ppm_image → Nat → Nat → Nat → Nat → ppm_pixel)
    (image : ppm_image) (fresh : List ppm_pixel) (P : Nat)
    (h : image.x > RESCALE_X ∨ image.y > RESCALE_Y) :
    (main_new_image image fresh).x = 2048 ∧ (main_new_image image fresh).y = 2048 ∧
    ∀ scaled, rescale_phase sample_bicubic image (main_new_image image fresh) P = some scaled →
      scaled.x = 2048 ∧ scaled.y = 2048 := by
  have hnot : ¬ (image.x ≤ RESCALE_X ∧ image.y ≤ RESCALE_Y) := by omega
  have hnew : main_new_image image fresh = { x := RESCALE_X, y := RESCALE_Y, data := fresh } := by
    unfold main_new_image
    rw [if_neg hnot]
  refine ⟨by rw [hnew], by rw [hnew], ?_⟩
  intro scaled hs
  have := rescale_phase_dims hs
  rw [hnew] at this
  exact this

/-- Witness for C11: a source image of 3000 rows and 100 columns. -/
theorem rescale_bounds_witness :
    (oversize_image.x > RESCALE_X ∨ oversize_image.y > RESCALE_Y) ∧
    ((main_new_image oversize_image []).x = 2048 ∧ (main_new_image oversize_image []).y = 2048 ∧
    ∀ scaled, rescale_phase (fun _ _ _ _ _ => dark) oversize_image
        (main_new_image oversize_image []) 2 = some scaled →
      scaled.x = 2048 ∧ scaled.y = 2048) :=
  ⟨by decide, rescale_bounds (fun _ _ _ _ _ => dark) oversize_image [] 2 (by decide)⟩

/-- C12, as stated, fails: a source image of 3000 rows and 100 columns gets a
    buffer of 2048 columns, not `min(100, 2048) = 100`. -/
theorem rescale_not_min_per_axis :
    ¬ ((main_new_image oversize_image []).x = Tema1.min oversize_image.x 2048 ∧
       (main_new_image oversize_image []).y = Tema1.min oversize_image.y 2048) := by
  decide

/-- C12, amended: the buffer that `main` sets up has the dimensions of the
    source image when both are at most 2048, and is 2048 x 2048 otherwise. -/
theorem rescale_dims (image : ppm_image) (fresh : List ppm_pixel) :
    (main_new_image image fresh).x
      = (if image.x ≤ RESCALE_X ∧ image.y ≤ RESCALE_Y then image.x else 2048) ∧
    (main_new_image image fresh).y
      = (if image.x ≤ RESCALE_X ∧ image.y ≤ RESCALE_Y then image.y else 2048) := by
  unfold main_new_image
  split <;> exact ⟨rfl, rfl⟩

/-! ## Workers write disjoint sets of indices -/

theorem rescale_image_parallel_eq
    (sample_bicubic : ppm_image → Nat → Nat → Nat → Nat → ppm_pixel)
    (image new_image : ppm_image) (ID P : Nat) :
    rescale_image_parallel sample_bicubic image new_image ID P
      = apply_writes image_wr new_image (rescale_writes sample_bicubic image new_image ID P) := by
  unfold rescale_image_parallel rescale_writes
  split
  · rfl
  · have hstep : ∀ (i j : Nat) (data : List ppm_pixel),
        write_pixel data (i * new_image.y + j)
            (sample_bicubic image i new_image.x j new_image.y)
          = apply_write write_pixel data
              (some (i * new_image.y + j, sample_bicubic image i new_image.x j new_image.y)) :=
      fun _ _ _ => rfl
    simp only [hstep, for_loop_apply_write, for_loop_apply_writes]
    exact apply_writes_data new_image _

theorem mem_rescale_writes {sample_bicubic : ppm_image → Nat → Nat → Nat → Nat → ppm_pixel}
    {image new_image : ppm_image} {ID P k : Nat} {v : ppm_pixel}
    (h : some (k, v) ∈ rescale_writes sample_bicubic image new_image ID P) :
    ∃ i j, (range_start ID new_image.x P ≤ i ∧ i < range_end ID new_image.x P) ∧
      j < new_image.y ∧ k = i * new_image.y + j := by
  unfold rescale_writes at h
  split at h
  · simp at h
  · simp only [List.mem_flatMap, List.mem_map, mem_range'_iff, Option.some.injEq,
      Prod.mk.injEq] at h
    obtain ⟨i, hi, j, hj, hk, -⟩ := h
    exact ⟨i, j, hi, hj.2, hk.symm⟩

theorem range_disjoint {ID1 ID2 N P i : Nat} (hne : ID1 ≠ ID2)
    (h1 : range_start ID1 N P ≤ i ∧ i < range_end ID1 N P)
    (h2 : range_start ID2 N P ≤ i ∧ i < range_end ID2 N P) : False := by
  rcases Nat.lt_or_gt_of_ne hne with h | h
  · have := range_end_le_start N P h
    omega
  · have := range_end_le_start N P h
    omega

theorem sample_write_key {image : ppm_image} {ID P : Nat} {k : Nat × Nat} {v : Fin 256}
    (h : some (k, v) ∈ sample_writes image ID P) :
    ((range_start ID (image.x / STEP) P ≤ k.1 ∧ k.1 < range_end ID (image.x / STEP) P) ∧
      k.2 ≤ image.y / STEP) ∨
    (k.1 = image.x / STEP ∧
      (range_start ID (image.y / STEP) P ≤ k.2 ∧ k.2 < range_end ID (image.y / STEP) P)) := by
  rw [mem_sample_writes] at h
  unfold interior_write last_column_write last_row_write at h
  rcases h with ⟨i, j, hi, hj, hw⟩ | ⟨i, hi, hw⟩ | ⟨j, hj, hw⟩
  · obtain ⟨rfl, -⟩ := sample_write_eq_some hw
    exact Or.inl ⟨hi, Nat.le_of_lt hj⟩
  · obtain ⟨rfl, -⟩ := sample_write_eq_some hw
    exact Or.inl ⟨hi, Nat.le_refl _⟩
  · obtain ⟨rfl, -⟩ := sample_write_eq_some hw
    exact Or.inr ⟨rfl, hj⟩

/-- C13: two distinct workers `ID1`, `ID2` of `P` write disjoint sets of
    indices in each phase.  Each routine is the run of its list of writes;
    no pixel index is a target in the rescaling lists of both workers, no
    grid cell is a target in the sampling lists of both (the cells of worker
    `ID` are the rows `[start_x, end_x)` with the columns `0 .. q`, and the
    cells `(p, j)` for `j` in `[start_y, end_y)`), and with 8 x 8 tiles no
    pixel index is a target in the marching lists of both.  `source` is the
    image that is rescaled into `new_image`, `image` the one that is sampled
    and marched. -/
theorem workers_write_disjoint
    (sample_bicubic : ppm_image → Nat → Nat → Nat → Nat → ppm_pixel)
    (source new_image image : ppm_image) (grid : Grid) (contour_map : List ppm_image)
    (P ID1 ID2 : Nat) (hP : 1 ≤ P) (h1 : ID1 < P) (h2 : ID2 < P) (hne : ID1 ≠ ID2)
    (htiles : ∀ t ∈ contour_map, t.x = STEP ∧ t.y = STEP) :
    ((∀ ID, rescale_image_parallel sample_bicubic source new_image ID P
        = apply_writes image_wr new_image
            (rescale_writes sample_bicubic source new_image ID P)) ∧
      ∀ k v v', some (k, v) ∈ rescale_writes sample_bicubic source new_image ID1 P →
        some (k, v') ∈ rescale_writes sample_bicubic source new_image ID2 P → False) ∧
    ((∀ ID, sample_grid_parallel image grid ID P
        = apply_writes grid_wr grid (sample_writes image ID P)) ∧
      (∀ ID k v, some (k, v) ∈ sample_writes image ID P →
        ((range_start ID (image.x / STEP) P ≤ k.1 ∧ k.1 < range_end ID (image.x / STEP) P) ∧
          k.2 ≤ image.y / STEP) ∨
        (k.1 = image.x / STEP ∧
          (range_start ID (image.y / STEP) P ≤ k.2 ∧
            k.2 < range_end ID (image.y / STEP) P))) ∧
      ∀ k v v', some (k, v) ∈ sample_writes image ID1 P →
        some (k, v') ∈ sample_writes image ID2 P → False) ∧
    ((∀ ID, march_parallel image grid contour_map ID P
        = apply_writes image_wr image
            (march_writes image.x image.y grid contour_map ID P)) ∧
      ∀ k v v', some (k, v) ∈ march_writes image.x image.y grid contour_map ID1 P →
        some (k, v') ∈ march_writes image.x image.y grid contour_map ID2 P → False) := by
  refine ⟨⟨fun ID => rescale_image_parallel_eq _ _ _ ID P, ?_⟩,
    ⟨fun ID => sample_grid_parallel_eq _ _ ID P, fun ID k v h => sample_write_key h, ?_⟩,
    ⟨fun ID => march_parallel_eq _ _ _ ID P, ?_⟩⟩
  · intro k v v' hw hw'
    obtain ⟨i, j, hi, hj, hk⟩ := mem_rescale_writes hw
    obtain ⟨i', j', hi', hj', hk'⟩ := mem_rescale_writes hw'
    rw [hk] at hk'
    obtain ⟨rfl, -⟩ := row_col_unique hj hj' hk'
    exact range_disjoint hne hi hi'
  · intro k v v' hw hw'
    have hend1 := range_end_le ID1 (image.x / STEP) P
    have hend2 := range_end_le ID2 (image.x / STEP) P
    rcases sample_write_key hw with ⟨hr, -⟩ | ⟨hr, hc⟩ <;>
      rcases sample_write_key hw' with ⟨hr', -⟩ | ⟨hr', hc'⟩
    · exact range_disjoint hne hr hr'
    · omega
    · omega
    · exact range_disjoint hne hc hc'
  · intro k v v' hw hw'
    obtain ⟨i, j, hi, hj, hb⟩ := (mem_march_writes _ _ _ _ _ _ _).1 hw
    obtain ⟨i', j', hi', hj', hb'⟩ := (mem_march_writes _ _ _ _ _ _ _).1 hw'
    obtain ⟨t, a, b, -, ha, hb1, -, hk⟩ := block_writes_some htiles hb
    obtain ⟨t', a', b', -, ha', hb1', -, hk'⟩ := block_writes_some htiles hb'
    have hc := block_col_bound hj
    have hc' := block_col_bound hj'
    rw [hk, Nat.add_assoc, Nat.add_assoc] at hk'
    obtain ⟨hrow, -⟩ := row_col_unique (by simp only [STEP] at *; omega)
      (by simp only [STEP] at *; omega) hk'
    have hii : i = i' := by simp only [STEP] at *; omega
    subst hii
    exact range_disjoint hne hi hi'

/-- Witness for C13: workers 0 and 1 of 2 on the 16 x 16 bright image. -/
theorem workers_write_disjoint_witness :
    1 ≤ 2 ∧ 0 < 2 ∧ 1 < 2 ∧ 0 ≠ 1 ∧ (∀ t ∈ numbered_tiles, t.x = STEP ∧ t.y = STEP) ∧
    (((∀ ID, rescale_image_parallel (fun _ _ _ _ _ => dark) oversize_image bright_image ID 2
        = apply_writes image_wr bright_image
            (rescale_writes (fun _ _ _ _ _ => dark) oversize_image bright_image ID 2)) ∧
      ∀ k v v', some (k, v) ∈ rescale_writes (fun _ _ _ _ _ => dark) oversize_image
          bright_image 0 2 →
        some (k, v') ∈ rescale_writes (fun _ _ _ _ _ => dark) oversize_image
          bright_image 1 2 → False) ∧
    ((∀ ID, sample_grid_parallel bright_image (filled_grid 3 3 0) ID 2
        = apply_writes grid_wr (filled_grid 3 3 0) (sample_writes bright_image ID 2)) ∧
      (∀ ID k v, some (k, v) ∈ sample_writes bright_image ID 2 →
        ((range_start ID (bright_image.x / STEP) 2 ≤ k.1 ∧
            k.1 < range_end ID (bright_image.x / STEP) 2) ∧
          k.2 ≤ bright_image.y / STEP) ∨
        (k.1 = bright_image.x / STEP ∧
          (range_start ID (bright_image.y / STEP) 2 ≤ k.2 ∧
            k.2 < range_end ID (bright_image.y / STEP) 2))) ∧
      ∀ k v v', some (k, v) ∈ sample_writes bright_image 0 2 →
        some (k, v') ∈ sample_writes bright_image 1 2 → False) ∧
    ((∀ ID, march_parallel bright_image (filled_grid 3 3 0) numbered_tiles ID 2
        = apply_writes image_wr bright_image
            (march_writes bright_image.x bright_image.y (filled_grid 3 3 0)
              numbered_tiles ID 2)) ∧
      ∀ k v v', some (k, v) ∈ march_writes bright_image.x bright_image.y (filled_grid 3 3 0)
          numbered_tiles 0 2 →
        some (k, v') ∈ march_writes bright_image.x bright_image.y (filled_grid 3 3 0)
          numbered_tiles 1 2 → False)) :=
  ⟨by decide, by decide, by decide, by decide, by decide,
    workers_write_disjoint (fun _ _ _ _ _ => dark) oversize_image bright_image bright_image
      (filled_grid 3 3 0) numbered_tiles 2 0 1 (by decide) (by decide) (by decide) (by decide)
      (by decide)⟩

/-! ## Tiles of any dimensions are stamped -/

theorem pixel_index_bound {x y r c : Nat} (hr : r < x) (hc : c < y) : r * y + c < x * y := by
  have h : (r + 1) * y ≤ x * y := Nat.mul_le_mul_right y hr
  rw [Nat.add_mul, Nat.one_mul] at h
  omega

set_option maxRecDepth 100000 in
/-- C14, as stated, fails: with sixteen tiles of 1 x 1 pixels, `march_parallel`
    on the one-block image returns an image, with the tile stamped at pixel 0;
    nothing reports the mismatch with `STEP` x `STEP`. -/
theorem tile_size_not_checked :
    (∀ t ∈ tiny_tiles, ¬ (t.x = STEP ∧ t.y = STEP)) ∧
    march_parallel one_block_image (filled_grid 2 2 0) tiny_tiles 0 1
      = some { x := 8, y := 8, data := dark :: List.replicate 63 bright } := by
  decide

/-- C14, amended: the marching stage does not check the dimensions of a
    tile.  Whatever the dimensions `t.x`, `t.y` of the tile `t` selected at
    block `(i, j)`, if the tile fits in the image from the block origin and
    its buffer holds the pixels that are read, the block returns an image in
    which the pixel at row `8 i + a`, column `8 j + b` is the pixel at index
    `t.x * a + b` of the tile, for all `a < t.x` and `b < t.y`. -/
theorem march_block_any_size (image : ppm_image) (grid : Grid) (contour_map : List ppm_image)
    (i j k : Nat) (t : ppm_image)
    (hk : config_index grid i j = some k) (ht : contour_map[k]? = some t)
    (hdata : image.data.length = image.x * image.y)
    (hrows : i * STEP + t.x ≤ image.x) (hcols : j * STEP + t.y ≤ image.y)
    (hreads : ∀ a, a < t.x → ∀ b, b < t.y → t.x * a + b < t.data.length) :
    ∃ image', march_block grid contour_map i j image = some image' ∧
      ∀ a b, a < t.x → b < t.y → ∃ px, t.data[t.x * a + b]? = some px ∧
        image'.data[(i * STEP + a) * image.y + j * STEP + b]? = some px := by
  have hbw : block_writes image.y grid contour_map i j
      = tile_writes image.y t (i * STEP) (j * STEP) := by
    unfold block_writes block_tile
    rw [hk]
    simp only [Option.some_bind, ht]
  have hw : ∀ a b, a < t.x → b < t.y →
      some ((i * STEP + a) * image.y + j * STEP + b, t.data[t.x * a + b]?.getD dark)
        ∈ tile_writes image.y t (i * STEP) (j * STEP) ∧
      t.data[t.x * a + b]? = some (t.data[t.x * a + b]?.getD dark) := by
    intro a b ha hb
    have hlt := hreads a ha b hb
    have hget : t.data[t.x * a + b]? = some (t.data[t.x * a + b]?.getD dark) := by
      rw [List.getElem?_eq_getElem hlt]
      rfl
    refine ⟨?_, hget⟩
    rw [mem_tile_writes]
    refine ⟨a, b, ha, hb, ?_⟩
    conv_rhs => rw [hget]
    rfl
  have hsome : (march_block grid contour_map i j image).isSome := by
    rw [march_block_eq, hbw, apply_writes_isSome_iff image_laws]
    intro w hmem
    rw [mem_tile_writes] at hmem
    obtain ⟨a, b, ha, hb, rfl⟩ := hmem
    rw [(hw a b ha hb).2]
    refine ⟨_, _, rfl, ?_⟩
    unfold image_rd
    have hlt : (i * STEP + a) * image.y + j * STEP + b < image.data.length := by
      rw [hdata, Nat.add_assoc]
      exact pixel_index_bound (by omega) (by omega)
    rw [List.getElem?_eq_getElem hlt]
    rfl
  obtain ⟨image', himage'⟩ := Option.isSome_iff_exists.1 hsome
  refine ⟨image', himage', ?_⟩
  rw [march_block_eq, hbw] at himage'
  intro a b ha hb
  obtain ⟨hmem, hget⟩ := hw a b ha hb
  refine ⟨_, hget, ?_⟩
  refine apply_writes_rd_written image_laws himage' hmem ?_
  intro v' hv'
  rw [mem_tile_writes] at hv'
  obtain ⟨a', b', ha', hb', heq⟩ := hv'
  rw [(hw a' b' ha' hb').2] at heq
  simp only [Option.map_some', Option.some.injEq, Prod.mk.injEq] at heq
  obtain ⟨hkey, hval⟩ := heq
  rw [Nat.add_assoc, Nat.add_assoc] at hkey
  obtain ⟨hr, hc⟩ := row_col_unique (by omega) (by omega) hkey
  have haa : a = a' := by omega
  have hbb : b = b' := by omega
  subst haa hbb
  exact hval

set_option maxRecDepth 100000 in
/-- Witness for C14: a tile of 1 x 1 pixels at the block `(0, 0)` of the one-block image. -/
theorem march_block_any_size_witness :
    config_index (filled_grid 2 2 0) 0 0 = some 0 ∧
    tiny_tiles[0]? = some { x := 1, y := 1, data := [dark] } ∧
    one_block_image.data.length = one_block_image.x * one_block_image.y ∧
    0 * STEP + 1 ≤ one_block_image.x ∧ 0 * STEP + 1 ≤ one_block_image.y ∧
    (∀ a, a < 1 → ∀ b, b < 1 → 1 * a + b < [dark].length) ∧
    ∃ image', march_block (filled_grid 2 2 0) tiny_tiles 0 0 one_block_image = some image' ∧
      ∀ a b, a < 1 → b < 1 → ∃ px, [dark][1 * a + b]? = some px ∧
        image'.data[(0 * STEP + a) * one_block_image.y + 0 * STEP + b]? = some px :=
  ⟨by decide, by decide, by decide, by decide, by decide, by decide,
    march_block_any_size one_block_image (filled_grid 2 2 0) tiny_tiles 0 0 0
      { x := 1, y := 1, data := [dark] } (by decide) (by decide) (by decide) (by decide)
      (by decide) (by decide)⟩

/-! ## Out-of-range accesses -/

theorem apply_writes_none_of_mem {σ κ ν : Type} {rd : σ → κ → Option ν}
    {wr : σ → κ → ν → Option σ} (L : StoreLaws rd wr) {ws : List (Option (κ × ν))} (s : σ)
    (h : none ∈ ws) : apply_writes wr s ws = none := by
  cases hr : apply_writes wr s ws with
  | none => rfl
  | some s' =>
    have hsome : (apply_writes wr s ws).isSome := by rw [hr]; rfl
    obtain ⟨k, v, hkv, -⟩ := (apply_writes_isSome_iff L ws s).1 hsome none h
    cases hkv

/-- C16: on the image of 2048 rows and 8 columns (16384 pixels), worker 0 of
    1 reads, for the last-column cell of block row 255, the pixel index
    `255 * STEP * y + x - 1 = 18367`, which is not below `x * y = 16384`:
    `sample_grid_parallel` performs an out-of-range read. -/
theorem last_column_read_out_of_range :
    tall_image.data.length = tall_image.x * tall_image.y ∧
    255 < tall_image.x / STEP ∧
    tall_image.x * tall_image.y ≤ 255 * STEP * tall_image.y + tall_image.x - 1 ∧
    sample_grid_parallel tall_image (filled_grid 257 2 0) 0 1 = none := by
  have hlen : tall_image.data.length = 16384 := List.length_replicate _ _
  refine ⟨hlen, by decide, by decide, ?_⟩
  rw [sample_grid_parallel_eq]
  refine apply_writes_none_of_mem grid_laws _ ?_
  rw [mem_sample_writes]
  refine Or.inr (Or.inl ⟨255, ⟨by decide, by decide⟩, ?_⟩)
  unfold last_column_write sample_write
  have hidx : ((255 : Nat) : Int) * STEP * tall_image.y + tall_image.x - 1
      = ((18367 : Nat) : Int) := by decide
  rw [hidx, read_pixel_nat, List.getElem?_eq_none (by rw [hlen]; decide)]
  rfl

theorem block_row_bound_lt {x i a : Nat} (hi : i < x / STEP) (ha : a < STEP) :
    i * STEP + a < x := by
  have := Nat.div_mul_le_self x STEP
  simp only [STEP] at *
  omega

/-- C17: on an image of `x * y` pixels, with a binary grid of
    `(p + 1) x (q + 1)` cells and sixteen tiles of 8 x 8 = 64 pixels,
    `march_parallel` of worker `ID < P` performs no out-of-range access: it
    returns an image, and for every block `(i, j)` of the worker the four
    cells read have a row `≤ p` and a column `≤ q` and are in the grid, the
    tile index `k` is below 16, every tile pixel index is below 64 and every
    image pixel index written is below `x * y`. -/
theorem march_parallel_in_range (image : ppm_image) (grid : Grid)
    (contour_map : List ppm_image) (ID P : Nat) (hID : ID < P)
    (hdata : image.data.length = image.x * image.y)
    (hlen : contour_map.length = CONTOUR_CONFIG_COUNT)
    (htiles : ∀ t ∈ contour_map, t.x = STEP ∧ t.y = STEP ∧ t.data.length = STEP * STEP)
    (hgrid : grid_is_binary grid (image.x / STEP + 1) (image.y / STEP + 1)) :
    (march_parallel image grid contour_map ID P).isSome ∧
    ∀ i j, range_start ID (image.x / STEP) P ≤ i → i < range_end ID (image.x / STEP) P →
      j < image.y / STEP →
      (i + 1 ≤ image.x / STEP ∧ j + 1 ≤ image.y / STEP) ∧
      ((read_cell grid i j).isSome ∧ (read_cell grid i (j + 1)).isSome ∧
        (read_cell grid (i + 1) (j + 1)).isSome ∧ (read_cell grid (i + 1) j).isSome) ∧
      ∃ k contour, config_index grid i j = some k ∧ k < 16 ∧
        contour_map[k]? = some contour ∧
        ∀ a b, a < contour.x → b < contour.y →
          contour.x * a + b < 64 ∧ contour.x * a + b < contour.data.length ∧
          (i * STEP + a) * image.y + j * STEP + b < image.x * image.y ∧
          (i * STEP + a) * image.y + j * STEP + b < image.data.length := by
  constructor
  · rw [march_parallel_eq, apply_writes_isSome_iff image_laws]
    intro w hw
    obtain ⟨i, j, hi, hj, hwb⟩ := (mem_march_writes _ _ _ _ _ _ _).1 hw
    have hip := Nat.lt_of_lt_of_le hi.2 (range_end_le _ _ _)
    obtain ⟨k, t, -, -, hall⟩ := march_writes_in_range hdata hlen htiles hgrid hip hj
    obtain ⟨-, -, -, -, hin⟩ := hall 0 0 (by decide) (by decide)
    obtain ⟨a, b, ha, hb, px, rfl⟩ := hin w hwb
    obtain ⟨-, -, -, hrd, -⟩ := hall a b ha hb
    exact ⟨_, _, rfl, hrd⟩
  · intro i j hi1 hi2 hj
    have hip := Nat.lt_of_lt_of_le hi2 (range_end_le _ _ _)
    have hcell : ∀ i' j', i' < image.x / STEP + 1 → j' < image.y / STEP + 1 →
        (read_cell grid i' j').isSome := by
      intro i' j' hi' hj'
      rcases hgrid i' hi' j' hj' with h | h <;> rw [h] <;> rfl
    refine ⟨⟨hip, hj⟩, ⟨hcell _ _ (by omega) (by omega), hcell _ _ (by omega) (by omega),
      hcell _ _ (by omega) (by omega), hcell _ _ (by omega) (by omega)⟩, ?_⟩
    obtain ⟨k, t, hk, ht, -⟩ := march_writes_in_range hdata hlen htiles hgrid hip hj
    obtain ⟨hklt, -⟩ := List.getElem?_eq_some.1 ht
    refine ⟨k, t, hk, by rw [hlen] at hklt; exact hklt, ht, ?_⟩
    obtain ⟨htx, hty, htd⟩ := htiles t (List.getElem?_mem ht)
    intro a b ha hb
    rw [htx] at ha ⊢
    rw [hty] at hb
    have h1 := block_row_bound_lt hip ha
    have h2 := block_col_bound hj
    have hidx : (i * STEP + a) * image.y + j * STEP + b < image.x * image.y := by
      rw [Nat.add_assoc]
      exact pixel_index_bound h1 (by simp only [STEP] at *; omega)
    refine ⟨by simp only [STEP] at *; omega, by rw [htd]; simp only [STEP] at *; omega,
      hidx, by rw [hdata]; exact hidx⟩

set_option maxRecDepth 100000 in
/-- Witness for C17: worker 1 of 2 on the 16 x 16 bright image. -/
theorem march_parallel_in_range_witness :
    1 < 2 ∧ bright_image.data.length = bright_image.x * bright_image.y ∧
    numbered_tiles.length = CONTOUR_CONFIG_COUNT ∧
    (∀ t ∈ numbered_tiles, t.x = STEP ∧ t.y = STEP ∧ t.data.length = STEP * STEP) ∧
    grid_is_binary (filled_grid 3 3 1) (bright_image.x / STEP + 1) (bright_image.y / STEP + 1) ∧
    ((march_parallel bright_image (filled_grid 3 3 1) numbered_tiles 1 2).isSome ∧
    ∀ i j, range_start 1 (bright_image.x / STEP) 2 ≤ i →
      i < range_end 1 (bright_image.x / STEP) 2 →
      j < bright_image.y / STEP →
      (i + 1 ≤ bright_image.x / STEP ∧ j + 1 ≤ bright_image.y / STEP) ∧
      ((read_cell (filled_grid 3 3 1) i j).isSome ∧
        (read_cell (filled_grid 3 3 1) i (j + 1)).isSome ∧
        (read_cell (filled_grid 3 3 1) (i + 1) (j + 1)).isSome ∧
        (read_cell (filled_grid 3 3 1) (i + 1) j).isSome) ∧
      ∃ k contour, config_index (filled_grid 3 3 1) i j = some k ∧ k < 16 ∧
        numbered_tiles[k]? = some contour ∧
        ∀ a b, a < contour.x → b < contour.y →
          contour.x * a + b < 64 ∧ contour.x * a + b < contour.data.length ∧
          (i * STEP + a) * bright_image.y + j * STEP + b < bright_image.x * bright_image.y ∧
          (i * STEP + a) * bright_image.y + j * STEP + b < bright_image.data.length) :=
  ⟨by decide, by decide, by decide, by decide, by decide,
    march_parallel_in_range bright_image (filled_grid 3 3 1) numbered_tiles 1 2
      (by decide) (by decide) (by decide) (by decide) (by decide)⟩

/-! ## Pixels that the marching phase leaves alone -/

theorem march_write_key {image_x image_y : Nat} {grid : Grid} {contour_map : List ppm_image}
    (htiles : tiles_are_step contour_map) {ID P k : Nat} {v : ppm_pixel}
    (h : some (k, v) ∈ march_writes image_x image_y grid contour_map ID P) :
    ∃ r c, k = r * image_y + c ∧ c < STEP * (image_y / STEP) ∧ c < image_y ∧
      STEP * range_start ID (image_x / STEP) P ≤ r ∧
      r < STEP * range_end ID (image_x / STEP) P := by
  obtain ⟨i, j, hi, hj, hb⟩ := (mem_march_writes _ _ _ _ _ _ _).1 h
  obtain ⟨t, a, b, -, ha, hb1, -, hk⟩ := block_writes_some htiles hb
  have hc := block_col_bound hj
  refine ⟨i * STEP + a, j * STEP + b, by rw [hk, Nat.add_assoc], ?_, ?_, ?_, ?_⟩ <;>
    simp only [STEP] at * <;> omega

theorem march_unwritten {image_x image_y : Nat} {grid : Grid} {contour_map : List ppm_image}
    (htiles : tiles_are_step contour_map) {ID P r c : Nat} (hc : c < image_y)
    (hout : r < STEP * range_start ID (image_x / STEP) P ∨
      STEP * range_end ID (image_x / STEP) P ≤ r ∨ STEP * (image_y / STEP) ≤ c)
    (v : ppm_pixel) :
    some (r * image_y + c, v) ∉ march_writes image_x image_y grid contour_map ID P := by
  intro h
  obtain ⟨r', c', hk, hc1, hc2, hr1, hr2⟩ := march_write_key htiles h
  obtain ⟨hr, hcc⟩ := row_col_unique hc hc2 hk
  subst hr hcc
  omega

theorem march_phase_defined {image : ppm_image} {grid : Grid} {contour_map : List ppm_image}
    (P : Nat) (hdata : image.data.length = image.x * image.y)
    (hlen : contour_map.length = CONTOUR_CONFIG_COUNT)
    (htiles : ∀ t ∈ contour_map, t.x = STEP ∧ t.y = STEP ∧ t.data.length = STEP * STEP)
    (hgrid : grid_is_binary grid (image.x / STEP + 1) (image.y / STEP + 1)) :
    (∀ ID, (march_parallel image grid contour_map ID P).isSome) ∧
    (march_phase image grid contour_map P).isSome := by
  have hin : ∀ ID, ∀ w ∈ march_writes image.x image.y grid contour_map ID P,
      ∃ k v, w = some (k, v) ∧ (image_rd image k).isSome := by
    intro ID w hw
    obtain ⟨i, j, hi, hj, hwb⟩ := (mem_march_writes _ _ _ _ _ _ _).1 hw
    have hip := Nat.lt_of_lt_of_le hi.2 (range_end_le _ _ _)
    obtain ⟨k, t, -, -, hall⟩ := march_writes_in_range hdata hlen htiles hgrid hip hj
    obtain ⟨-, -, -, -, hmem⟩ := hall 0 0 (by decide) (by decide)
    obtain ⟨a, b, ha, hb, px, rfl⟩ := hmem w hwb
    obtain ⟨-, -, -, hrd, -⟩ := hall a b ha hb
    exact ⟨_, _, rfl, hrd⟩
  constructor
  · intro ID
    rw [march_parallel_eq, apply_writes_isSome_iff image_laws]
    exact hin ID
  · rw [march_phase_eq, apply_writes_isSome_iff image_laws]
    intro w hw
    obtain ⟨ID, -, hw'⟩ := List.mem_flatMap.1 hw
    exact hin ID w hw'

/-- C18: with 8 x 8 tiles, `march_parallel` of worker `ID < P` leaves
    unchanged every pixel `(r, c)` whose row is outside `[8 start, 8 end)` or
    whose column is at least `8 q`; after the marching phase the pixels of
    the rows `≥ 8 p` and of the columns `≥ 8 q` are those of the input; an
    image with `x < 8` or `y < 8` is returned unchanged.  The worker and the
    phase return on an image of `x * y` pixels with a binary grid and
    sixteen tiles of 64 pixels. -/
theorem march_parallel_frame (image : ppm_image) (grid : Grid) (contour_map : List ppm_image)
    (ID P : Nat) (hID : ID < P) (htiles : ∀ t ∈ contour_map, t.x = STEP ∧ t.y = STEP) :
    (∀ image', march_parallel image grid contour_map ID P = some image' →
      ∀ r c, c < image.y →
        (r < STEP * range_start ID (image.x / STEP) P ∨
          STEP * range_end ID (image.x / STEP) P ≤ r ∨ STEP * (image.y / STEP) ≤ c) →
        image'.data[r * image.y + c]? = image.data[r * image.y + c]?) ∧
    (∀ image', march_phase image grid contour_map P = some image' →
      ∀ r c, c < image.y → (STEP * (image.x / STEP) ≤ r ∨ STEP * (image.y / STEP) ≤ c) →
        image'.data[r * image.y + c]? = image.data[r * image.y + c]?) ∧
    ((image.x < STEP ∨ image.y < STEP) → march_phase image grid contour_map P = some image) ∧
    ((image.data.length = image.x * image.y ∧ contour_map.length = CONTOUR_CONFIG_COUNT ∧
        (∀ t ∈ contour_map, t.data.length = STEP * STEP) ∧
        grid_is_binary grid (image.x / STEP + 1) (image.y / STEP + 1)) →
      (march_parallel image grid contour_map ID P).isSome ∧
      (march_phase image grid contour_map P).isSome) := by
  refine ⟨?_, ?_, ?_, ?_⟩
  · intro image' h r c hc hout
    rw [march_parallel_eq] at h
    exact apply_writes_rd_unwritten image_laws h (fun v => march_unwritten htiles hc hout v)
  · intro image' h r c hc hout
    rw [march_phase_eq] at h
    refine apply_writes_rd_unwritten image_laws h (fun v hv => ?_)
    obtain ⟨ID', -, hw⟩ := List.mem_flatMap.1 hv
    have hend := range_end_le ID' (image.x / STEP) P
    refine march_unwritten htiles hc ?_ v hw
    rcases hout with h1 | h1
    · exact Or.inr (Or.inl (by simp only [STEP] at *; omega))
    · exact Or.inr (Or.inr h1)
  · intro hsmall
    rw [march_phase_eq]
    have hnil : (List.range P).flatMap
        (fun ID => march_writes image.x image.y grid contour_map ID P) = [] := by
      rw [List.eq_nil_iff_forall_not_mem]
      intro w hw
      obtain ⟨ID', -, hw'⟩ := List.mem_flatMap.1 hw
      obtain ⟨i, j, hi, hj, -⟩ := (mem_march_writes _ _ _ _ _ _ _).1 hw'
      have hend := range_end_le ID' (image.x / STEP) P
      rcases hsmall with h1 | h1
      · have : image.x / STEP = 0 := Nat.div_eq_of_lt h1
        omega
      · have : image.y / STEP = 0 := Nat.div_eq_of_lt h1
        omega
    rw [hnil]
    rfl
  · rintro ⟨hdata, hlen, hsize, hgrid⟩
    have h := march_phase_defined P hdata hlen
      (fun t ht => ⟨(htiles t ht).1, (htiles t ht).2, hsize t ht⟩) hgrid
    exact ⟨h.1 ID, h.2⟩

set_option maxRecDepth 100000 in
/-- Witness for C18: worker 1 of 2 on the 16 x 16 bright image; the worker
    and the phase return. -/
theorem march_parallel_frame_witness :
    1 < 2 ∧ (∀ t ∈ numbered_tiles, t.x = STEP ∧ t.y = STEP) ∧
    ((march_parallel bright_image (filled_grid 3 3 1) numbered_tiles 1 2).isSome ∧
      (march_phase bright_image (filled_grid 3 3 1) numbered_tiles 2).isSome) ∧
    (∀ image', march_parallel bright_image (filled_grid 3 3 1) numbered_tiles 1 2 = some image' →
      ∀ r c, c < bright_image.y →
        (r < STEP * range_start 1 (bright_image.x / STEP) 2 ∨
          STEP * range_end 1 (bright_image.x / STEP) 2 ≤ r ∨
          STEP * (bright_image.y / STEP) ≤ c) →
        image'.data[r * bright_image.y + c]? = bright_image.data[r * bright_image.y + c]?) ∧
    (∀ image', march_phase bright_image (filled_grid 3 3 1) numbered_tiles 2 = some image' →
      ∀ r c, c < bright_image.y →
        (STEP * (bright_image.x / STEP) ≤ r ∨ STEP * (bright_image.y / STEP) ≤ c) →
        image'.data[r * bright_image.y + c]? = bright_image.data[r * bright_image.y + c]?) ∧
    ((bright_image.x < STEP ∨ bright_image.y < STEP) →
      march_phase bright_image (filled_grid 3 3 1) numbered_tiles 2 = some bright_image) :=
  ⟨by decide, by decide,
    (march_parallel_frame bright_image (filled_grid 3 3 1) numbered_tiles 1 2
      (by decide) (by decide)).2.2.2 ⟨by decide, by decide, by decide, by decide⟩,
    (march_parallel_frame bright_image (filled_grid 3 3 1) numbered_tiles 1 2
      (by decide) (by decide)).1,
    (march_parallel_frame bright_image (filled_grid 3 3 1) numbered_tiles 1 2
      (by decide) (by decide)).2.1,
    (march_parallel_frame bright_image (filled_grid 3 3 1) numbered_tiles 1 2
      (by decide) (by decide)).2.2.1⟩

end Tema1
